import Mathlib

/-
  Verification of the stats symbol-table core
  (source/common/stats/symbol_table_impl.{h,cc}).

  Shallow embedding conventions:
  * Strings (absl::string_view / std::string payloads) are lists of characters.
  * Bytes (uint8_t) are Nat values below 256; uint32 arithmetic is Nat with
    explicit reductions modulo 2 ^ 32 where the source can wrap.
  * Bitwise operations on the source side are translated arithmetically:
    x & 0x7f = x % 128, x >> 7 = x / 128, x >> 8 = x / 256,
    (x % 128) | 0x80 = x % 128 + 128, b0 | (b1 << 8) = b0 + 256 * b1
    (the OR-ed ranges are disjoint).
  * Debug assertions (ASSERT / RELEASE_ASSERT) become Option-valued results:
    none models the fatal assertion path.
-/

/-- Model of a C++ string (token or stat name): a list of characters. -/
abbrev Str := List Char

/-! ## Token codec (SymbolEncoding::addSymbol / decodeSymbols) -/

/-- SymbolEncoding::addSymbol: base-128 little-endian encoding of one symbol,
with the high bit of a byte marking continuation.  The do-while loop always
emits at least one byte; a symbol below 128 is a single byte. -/
def addSymbol (s : Nat) : List Nat :=
  if s < 128 then [s]
  else (s % 128 + 128) :: addSymbol (s / 128)
termination_by s
decreasing_by
  exact Nat.div_lt_self (by omega) (by norm_num)

/-- The byte stream of a whole symbol vector, as accumulated in
SymbolEncoding::vec_ by successive addSymbol calls. -/
def encodeSyms (syms : List Nat) : List Nat :=
  syms.flatMap addSymbol

/-- Loop body state of SymbolEncoding::decodeSymbols: remaining bytes,
current shift, and the partially accumulated symbol (a uint32, hence the
reduction modulo 2 ^ 32).  A byte with the high bit clear completes the
current symbol; a trailing group of continuation bytes is dropped without
any error check, exactly as in the source. -/
def decodeSymbolsAux : List Nat → Nat → Nat → List Nat
  | [], _, _ => []
  | uc :: rest, shift, acc =>
    if uc < 128 then ((acc + uc % 128 * 2 ^ shift) % 2 ^ 32) :: decodeSymbolsAux rest 0 0
    else decodeSymbolsAux rest (shift + 7) ((acc + uc % 128 * 2 ^ shift) % 2 ^ 32)

/-- SymbolEncoding::decodeSymbols over a byte array. -/
def decodeSymbols (bytes : List Nat) : List Nat :=
  decodeSymbolsAux bytes 0 0

/-! ## Length prefix (saveLengthToBytesReturningNext / moveToStorage) -/

/-- saveLengthToBytesReturningNext followed by the payload copy of
SymbolEncoding::moveToStorage: two little-endian length bytes then the
payload.  The ASSERT(length < StatNameMaxSize) is the none branch; the
uint8 stores truncate modulo 256. -/
def moveToStorage (payload : List Nat) : Option (List Nat) :=
  if payload.length < 65536 then
    some (payload.length % 256 :: payload.length / 256 % 256 :: payload)
  else none

/-- StatName::dataSize: size_and_data_[0] | (size_and_data_[1] << 8). -/
def dataSize (bytes : List Nat) : Nat :=
  bytes.getD 0 0 + 256 * bytes.getD 1 0

/-- StatName::data combined with the dataSize loop bound: the payload bytes
a decode of this StatName will walk over. -/
def statNameData (bytes : List Nat) : List Nat :=
  (bytes.drop 2).take (dataSize bytes)

/-- Claim-side description of the codec output for one token id: the base-128
little-endian digits of the id, every digit except the last carrying the
continuation bit (plus 128). -/
def withContinuation : List Nat → List Nat
  | [] => []
  | [d] => [d]
  | d :: d2 :: rest => (d + 128) :: withContinuation (d2 :: rest)

/-! ## Dotted-name splitting (absl::StrSplit / absl::StrJoin on '.') -/

/-- absl::StrSplit(name, '.') for a non-empty name; splitting always yields at
least one (possibly empty) token. -/
def splitOnDot : Str → List Str
  | [] => [[]]
  | c :: rest =>
    match splitOnDot rest with
    | [] => [[]]
    | t :: ts => if c = '.' then [] :: t :: ts else (c :: t) :: ts

/-- absl::StrJoin(tokens, "."). -/
def joinDots : List Str → Str
  | [] => []
  | [t] => t
  | t :: t2 :: ts => t ++ '.' :: joinDots (t2 :: ts)

/-! ## Symbol table state (SymbolTable) -/

/-- Value type of the encode map: the symbol plus its reference count
(SharedSymbol in the source; ref counts start at 1). -/
structure SharedSymbol where
  symbol : Nat
  ref_count : Nat
deriving DecidableEq

/-- The mutable state of SymbolTable: staged next symbol, monotonic counter,
the two interner maps (association lists standing in for the two
flat_hash_maps), and the LIFO free pool (top of the std::stack at the head). -/
structure SymbolTable where
  next_symbol : Nat
  monotonic_counter : Nat
  encode_map : List (Str × SharedSymbol)
  decode_map : List (Nat × Str)
  pool : List Nat
deriving DecidableEq

/-- A freshly constructed SymbolTable: next_symbol_(0), monotonic_counter_(0),
empty maps and pool. -/
def initTable : SymbolTable := ⟨0, 0, [], [], []⟩

/-- flat_hash_map::find on an association list (first matching key). -/
def lookupKey {κ ν : Type} [DecidableEq κ] (k : κ) : List (κ × ν) → Option ν
  | [] => none
  | p :: rest => if p.1 = k then some p.2 else lookupKey k rest

/-- flat_hash_map::erase of the entry found for a key. -/
def eraseKey {κ ν : Type} [DecidableEq κ] (k : κ) : List (κ × ν) → List (κ × ν)
  | [] => []
  | p :: rest => if p.1 = k then rest else p :: eraseKey k rest

/-- In-place update of the found entry's ref_count_ (the ++ / -- on
encode_search->second.ref_count_ in the source). -/
def adjustRef (f : Nat → Nat) (k : Str) : List (Str × SharedSymbol) → List (Str × SharedSymbol)
  | [] => []
  | p :: rest =>
    if p.1 = k then (p.1, ⟨p.2.symbol, f p.2.ref_count⟩) :: rest
    else p :: adjustRef f k rest

/-- SymbolTable::newSymbol: stage the next symbol from the pool if non-empty,
else from the incremented monotonic counter (uint32, hence mod 2 ^ 32);
afterwards ASSERT(monotonic_counter_ != 0) is the none branch. -/
def SymbolTable.newSymbol (T : SymbolTable) : Option SymbolTable :=
  if T.pool = [] then
    if (T.monotonic_counter + 1) % 2 ^ 32 = 0 then none
    else some { T with next_symbol := (T.monotonic_counter + 1) % 2 ^ 32,
                       monotonic_counter := (T.monotonic_counter + 1) % 2 ^ 32 }
  else
    if T.monotonic_counter = 0 then none
    else some { T with next_symbol := T.pool.headI, pool := T.pool.tail }

/-- SymbolTable::toSymbol: intern one token.  On a miss, insert into both maps
under the staged next_symbol_ and re-stage (the ASSERT on the decode-map
insert succeeding is the none branch); on a hit, return the existing symbol
and bump its ref count. -/
def SymbolTable.toSymbol (T : SymbolTable) (sv : Str) : Option (Nat × SymbolTable) :=
  match lookupKey sv T.encode_map with
  | none =>
    match lookupKey T.next_symbol T.decode_map with
    | some _ => none
    | none =>
      (SymbolTable.newSymbol
        { T with encode_map := (sv, ⟨T.next_symbol, 1⟩) :: T.encode_map,
                 decode_map := (T.next_symbol, sv) :: T.decode_map }).map
        (fun T2 => (T.next_symbol, T2))
  | some ss =>
    some (ss.symbol, { T with encode_map := adjustRef (fun rc => rc + 1) sv T.encode_map })

/-- The locked loop of SymbolTable::encode: intern each token in order. -/
def SymbolTable.toSymbols (T : SymbolTable) : List Str → Option (List Nat × SymbolTable)
  | [] => some ([], T)
  | tok :: rest =>
    match T.toSymbol tok with
    | none => none
    | some (sym, T1) =>
      match T1.toSymbols rest with
      | none => none
      | some (syms, T2) => some (sym :: syms, T2)

/-- SymbolTable::encode: an empty name yields an empty encoding without
touching the table; otherwise split on dots and intern every token.
The returned symbol vector is what SymbolEncoding::addSymbol then packs. -/
def SymbolTable.encode (T : SymbolTable) (name : Str) : Option (List Nat × SymbolTable) :=
  if name = [] then some ([], T) else T.toSymbols (splitOnDot name)

/-- SymbolTable::fromSymbol: RELEASE_ASSERT on a missing symbol is none. -/
def SymbolTable.fromSymbol (T : SymbolTable) (symbol : Nat) : Option Str :=
  lookupKey symbol T.decode_map

/-- The locked loop of SymbolTable::decodeSymbolVec: resolve every symbol. -/
def resolveAll (T : SymbolTable) : List Nat → Option (List Str)
  | [] => some []
  | s :: rest =>
    match T.fromSymbol s, resolveAll T rest with
    | some tok, some toks => some (tok :: toks)
    | _, _ => none

/-- SymbolTable::decodeSymbolVec: resolve all symbols, join with dots. -/
def SymbolTable.decodeSymbolVec (T : SymbolTable) (symbols : List Nat) : Option Str :=
  (resolveAll T symbols).map joinDots

/-- SymbolTable::decode over a payload byte array. -/
def SymbolTable.decode (T : SymbolTable) (bytes : List Nat) : Option Str :=
  T.decodeSymbolVec (decodeSymbols bytes)

/-- One iteration of the SymbolTable::free loop: both map lookups must hit
(ASSERTs), the ref count is decremented, and on reaching zero both entries
are erased and the symbol is pushed onto the free pool. -/
def SymbolTable.freeSymbol (T : SymbolTable) (symbol : Nat) : Option SymbolTable :=
  match lookupKey symbol T.decode_map with
  | none => none
  | some sv =>
    match lookupKey sv T.encode_map with
    | none => none
    | some ss =>
      if ss.ref_count - 1 = 0 then
        some { T with encode_map := eraseKey sv T.encode_map,
                      decode_map := eraseKey symbol T.decode_map,
                      pool := symbol :: T.pool }
      else
        some { T with encode_map := adjustRef (fun rc => rc - 1) sv T.encode_map }

/-- SymbolTable::free over an already decoded symbol vector. -/
def SymbolTable.freeSymbols (T : SymbolTable) : List Nat → Option SymbolTable
  | [] => some T
  | s :: rest =>
    match T.freeSymbol s with
    | none => none
    | some T1 => T1.freeSymbols rest

/-- One iteration of the SymbolTable::incRefCount loop. -/
def SymbolTable.incRefSymbol (T : SymbolTable) (symbol : Nat) : Option SymbolTable :=
  match lookupKey symbol T.decode_map with
  | none => none
  | some sv =>
    match lookupKey sv T.encode_map with
    | none => none
    | some _ =>
      some { T with encode_map := adjustRef (fun rc => rc + 1) sv T.encode_map }

/-- SymbolTable::incRefCount over an already decoded symbol vector. -/
def SymbolTable.incRefSymbols (T : SymbolTable) : List Nat → Option SymbolTable
  | [] => some T
  | s :: rest =>
    match T.incRefSymbol s with
    | none => none
    | some T1 => T1.incRefSymbols rest

/-- SymbolTable::numSymbols: the lock-held ASSERT that the two maps have the
same size is the none branch; otherwise the encode-map size. -/
def SymbolTable.numSymbols (T : SymbolTable) : Option Nat :=
  if T.encode_map.length = T.decode_map.length then some T.encode_map.length else none

/-- SymbolTable::lessThan on decoded symbol vectors: scan paired positions; at
the first differing pair resolve both symbols (RELEASE_ASSERT is none) and
compare the strings; if one vector is exhausted the shorter one is less. -/
def SymbolTable.lessThanSyms (T : SymbolTable) : List Nat → List Nat → Option Bool
  | [], [] => some false
  | [], _ :: _ => some true
  | _ :: _, [] => some false
  | a :: as, b :: bs =>
    if a = b then T.lessThanSyms as bs
    else
      match T.fromSymbol a, T.fromSymbol b with
      | some sa, some sb => some (decide (sa < sb))
      | _, _ => none

/-- SymbolTable::lessThan on two packed StatNames. -/
def SymbolTable.lessThan (T : SymbolTable) (a b : List Nat) : Option Bool :=
  T.lessThanSyms (decodeSymbols (statNameData a)) (decodeSymbols (statNameData b))

/-- StatName::operator==: sizes equal and the payload bytes memcmp-equal. -/
def statNameEq (a b : List Nat) : Bool :=
  dataSize a == dataSize b && statNameData a == statNameData b

/-- StatNameJoiner::StatNameJoiner(a, b): allocate a fresh length prefix for
the summed payload sizes (saveLengthToBytesReturningNext ASSERT is none) and
concatenate the two payloads; the table is never consulted. -/
def statNameJoiner (a b : List Nat) : Option (List Nat) :=
  if dataSize a + dataSize b < 65536 then
    some ((dataSize a + dataSize b) % 256 :: (dataSize a + dataSize b) / 256 % 256 ::
      (statNameData a ++ statNameData b))
  else none

/-- StatName::toString: decode the payload against the table. -/
def statNameToString (T : SymbolTable) (bytes : List Nat) : Option Str :=
  T.decode (statNameData bytes)

/-- StatNameStorage construction from a string: encode, then move the encoding
into a length-prefixed allocation. -/
def encodeToStorage (T : SymbolTable) (name : Str) : Option (List Nat × SymbolTable) :=
  match T.encode name with
  | none => none
  | some (syms, T1) =>
    match moveToStorage (encodeSyms syms) with
    | none => none
    | some bytes => some (bytes, T1)

/-- One externally visible mutation of the table: a successful encode, or a
successful free / incRefCount of some decoded symbol vector.  Failing
assertions terminate the process, so only successful operations yield
reachable states. -/
inductive Step : SymbolTable → SymbolTable → Prop
  | encode (T : SymbolTable) (name : Str) (syms : List Nat) (T2 : SymbolTable)
      (h : T.encode name = some (syms, T2)) : Step T T2
  | free (T : SymbolTable) (syms : List Nat) (T2 : SymbolTable)
      (h : T.freeSymbols syms = some T2) : Step T T2
  | incRef (T : SymbolTable) (syms : List Nat) (T2 : SymbolTable)
      (h : T.incRefSymbols syms = some T2) : Step T T2

/-- Table states reachable from a freshly constructed table. -/
def Reachable (T : SymbolTable) : Prop :=
  Relation.ReflTransGen Step initTable T

/-! ## The table invariant -/

/-- Invariant of every reachable SymbolTable state: the two maps are nodup
bimaps of each other with equal size, ref counts are positive, the staged
next_symbol_ and every pooled symbol are not live, the pool has no
duplicates and does not contain the staged symbol, and all symbols are
bounded by the (uint32) monotonic counter. -/
structure TableInv (T : SymbolTable) : Prop where
  encNodup : (T.encode_map.map Prod.fst).Nodup
  decNodup : (T.decode_map.map Prod.fst).Nodup
  encToDec : ∀ sv ss, lookupKey sv T.encode_map = some ss →
    lookupKey ss.symbol T.decode_map = some sv
  decToEnc : ∀ sym sv, lookupKey sym T.decode_map = some sv →
    ∃ rc, lookupKey sv T.encode_map = some ⟨sym, rc⟩
  lenEq : T.encode_map.length = T.decode_map.length
  refPos : ∀ sv ss, lookupKey sv T.encode_map = some ss → 1 ≤ ss.ref_count
  nextFresh : lookupKey T.next_symbol T.decode_map = none
  poolFresh : ∀ s ∈ T.pool, lookupKey s T.decode_map = none
  poolNodup : T.pool.Nodup
  nextPool : T.next_symbol ∉ T.pool
  decBound : ∀ sym sv, lookupKey sym T.decode_map = some sv → sym ≤ T.monotonic_counter
  poolBound : ∀ s ∈ T.pool, s ≤ T.monotonic_counter
  nextBound : T.next_symbol ≤ T.monotonic_counter
  monoLt : T.monotonic_counter < 2 ^ 32

/-! ## Resolving encoded symbols back to tokens -/

/-- The token list a name is interned as: SymbolTable::encode returns the
empty encoding for an empty name and splits on dots otherwise. -/
def nameTokens (name : Str) : List Str :=
  if name = [] then [] else splitOnDot name

/-! ## Concrete states used by witnesses -/

/-- The table after encoding the single name a.b into a fresh table. -/
def wTab : SymbolTable :=
  ⟨2, 2, [(['b'], ⟨1, 1⟩), (['a'], ⟨0, 1⟩)], [(1, ['b']), (0, ['a'])], []⟩

/-! ## Effect of freeSymbols on the maps -/

/-- What an entry of the encode map looks like after freeing a symbol
vector: each occurrence of the entry's symbol removes one reference; the
entry disappears when the count is exhausted. -/
def encAfterFree (S : SymbolTable) (syms : List Nat) (tv : Str) : Option SharedSymbol :=
  match lookupKey tv S.encode_map with
  | none => none
  | some ss =>
    if ss.ref_count ≤ syms.count ss.symbol then none
    else some ⟨ss.symbol, ss.ref_count - syms.count ss.symbol⟩

/-- The decode-map analogue of encAfterFree. -/
def decAfterFree (S : SymbolTable) (syms : List Nat) (s : Nat) : Option Str :=
  match lookupKey s S.decode_map with
  | none => none
  | some tv =>
    match lookupKey tv S.encode_map with
    | none => none
    | some ss => if ss.ref_count ≤ syms.count ss.symbol then none else some tv

/-! ## C8: encode followed by free restores the maps -/

/-- SymbolTable::free on a packed StatName: decode the payload, then run the
locked free loop. -/
def SymbolTable.free (T : SymbolTable) (bytes : List Nat) : Option SymbolTable :=
  T.freeSymbols (decodeSymbols (statNameData bytes))

/-- SymbolTable::incRefCount on a packed StatName. -/
def SymbolTable.incRefCount (T : SymbolTable) (bytes : List Nat) : Option SymbolTable :=
  T.incRefSymbols (decodeSymbols (statNameData bytes))

/-! ## Codec lemmas -/

theorem addSymbol_of_lt (s : Nat) (h : s < 128) : addSymbol s = [s] := by
  rw [addSymbol]; simp [h]

theorem addSymbol_of_ge (s : Nat) (h : ¬ s < 128) :
    addSymbol s = (s % 128 + 128) :: addSymbol (s / 128) := by
  rw [addSymbol]; simp [h]

theorem addSymbol_zero : addSymbol 0 = [0] :=
  addSymbol_of_lt 0 (by norm_num)

theorem addSymbol_eq_withContinuation_digits (s : Nat) (hs : 0 < s) :
    addSymbol s = withContinuation (Nat.digits 128 s) := by
  induction s using Nat.strong_induction_on with
  | _ s ih =>
    rcases Nat.lt_or_ge s 128 with h | h
    · rw [addSymbol_of_lt s h]
      rw [Nat.digits_def' (by norm_num : (1:Nat) < 128) hs]
      have hdiv : s / 128 = 0 := Nat.div_eq_of_lt h
      rw [hdiv]
      simp [withContinuation, Nat.mod_eq_of_lt h]
    · rw [addSymbol_of_ge s (Nat.not_lt.mpr h)]
      have hdivpos : 0 < s / 128 := Nat.div_pos h (by norm_num)
      rw [Nat.digits_def' (by norm_num : (1:Nat) < 128) hs]
      have hne : Nat.digits 128 (s / 128) ≠ [] := by
        simpa [Nat.digits_ne_nil_iff_ne_zero] using Nat.pos_iff_ne_zero.mp hdivpos
      obtain ⟨d, ds, hds⟩ := List.exists_cons_of_ne_nil hne
      rw [hds, withContinuation]
      have ihd := ih (s / 128) (Nat.div_lt_self (Nat.lt_of_lt_of_le (by norm_num) h) (by norm_num)) hdivpos
      rw [ihd, hds]

/-- Decoding the bytes of one symbol in the middle of a stream: the pending
accumulator is completed to acc + s * 2 ^ shift and decoding resumes fresh. -/
theorem decodeSymbolsAux_addSymbol (s : Nat) :
    ∀ (shift acc : Nat) (rest : List Nat),
      acc + s * 2 ^ shift < 2 ^ 32 →
      decodeSymbolsAux (addSymbol s ++ rest) shift acc =
        (acc + s * 2 ^ shift) :: decodeSymbolsAux rest 0 0 := by
  induction s using Nat.strong_induction_on with
  | _ s ih =>
    intro shift acc rest h
    rcases Nat.lt_or_ge s 128 with hlt | hge
    · rw [addSymbol_of_lt s hlt]
      show decodeSymbolsAux (s :: rest) shift acc = _
      rw [decodeSymbolsAux, if_pos hlt, Nat.mod_eq_of_lt hlt, Nat.mod_eq_of_lt h]
    · rw [addSymbol_of_ge s (Nat.not_lt.mpr hge)]
      have hbyte : ¬ (s % 128 + 128 < 128) := by omega
      have hm : (s % 128 + 128) % 128 = s % 128 := by omega
      have hsplit : s % 128 + 128 * (s / 128) = s := Nat.mod_add_div s 128
      have hle : s % 128 * 2 ^ shift ≤ s * 2 ^ shift :=
        Nat.mul_le_mul_right _ (Nat.mod_le s 128)
      have hb : acc + s % 128 * 2 ^ shift < 2 ^ 32 := by omega
      have hdiv : s / 128 < s :=
        Nat.div_lt_self (by omega) (by norm_num)
      have harith : acc + s % 128 * 2 ^ shift + s / 128 * 2 ^ (shift + 7) =
          acc + s * 2 ^ shift := by
        rw [pow_add]
        nlinarith [hsplit]
      have hIH := ih (s / 128) hdiv (shift + 7) (acc + s % 128 * 2 ^ shift) rest
        (by rw [harith]; exact h)
      show decodeSymbolsAux ((s % 128 + 128) :: (addSymbol (s / 128) ++ rest)) shift acc = _
      rw [decodeSymbolsAux, if_neg hbyte, hm, Nat.mod_eq_of_lt hb, hIH, harith]

/-- Codec round-trip: decodeSymbols inverts the addSymbol stream, for any
vector of uint32 symbols. -/
theorem decodeSymbols_encodeSyms (syms : List Nat) (h : ∀ s ∈ syms, s < 2 ^ 32) :
    decodeSymbols (encodeSyms syms) = syms := by
  induction syms with
  | nil => rfl
  | cons s rest ihr =>
    have hs : s < 2 ^ 32 := h s (by simp)
    have hrest : ∀ x ∈ rest, x < 2 ^ 32 := fun x hx => h x (by simp [hx])
    unfold encodeSyms decodeSymbols
    rw [List.flatMap_cons]
    rw [decodeSymbolsAux_addSymbol s 0 0 (rest.flatMap addSymbol) (by simpa using hs)]
    have hr := ihr hrest
    unfold encodeSyms decodeSymbols at hr
    rw [hr]
    simp

/-- A run of continuation bytes produces no symbol at all. -/
theorem decodeSymbolsAux_all_cont (S : List Nat) (hS : ∀ b ∈ S, 128 ≤ b) :
    ∀ shift acc, decodeSymbolsAux S shift acc = [] := by
  induction S with
  | nil => intro shift acc; rfl
  | cons b rest ih =>
    intro shift acc
    have hb : ¬ b < 128 := Nat.not_lt.mpr (hS b (by simp))
    simp only [decodeSymbolsAux, hb, if_false]
    exact ih (fun x hx => hS x (by simp [hx])) _ _

/-- Appending a non-empty run of continuation bytes to any byte stream leaves
the decoded symbol sequence unchanged: the incomplete trailing token is
silently dropped, with no error. -/
theorem decodeSymbolsAux_append_cont (P S : List Nat) (hS : ∀ b ∈ S, 128 ≤ b) :
    ∀ shift acc, decodeSymbolsAux (P ++ S) shift acc = decodeSymbolsAux P shift acc := by
  induction P with
  | nil =>
    intro shift acc
    simpa using decodeSymbolsAux_all_cont S hS shift acc
  | cons uc rest ih =>
    intro shift acc
    simp only [List.cons_append, decodeSymbolsAux]
    by_cases h : uc < 128
    · simp [h, ih]
    · simp [h, ih]

theorem splitOnDot_ne_nil (s : Str) : splitOnDot s ≠ [] := by
  cases s with
  | nil => simp [splitOnDot]
  | cons c rest =>
    simp only [splitOnDot]
    cases splitOnDot rest with
    | nil => simp
    | cons t ts => by_cases h : c = '.' <;> simp [h]

theorem joinDots_splitOnDot (s : Str) : joinDots (splitOnDot s) = s := by
  induction s with
  | nil => rfl
  | cons c rest ih =>
    simp only [splitOnDot]
    rcases hsp : splitOnDot rest with _ | ⟨t, ts⟩
    · exact absurd hsp (splitOnDot_ne_nil rest)
    · rw [hsp] at ih
      by_cases h : c = '.'
      · subst h
        simp only [if_pos rfl, joinDots]
        simp [ih]
      · simp only [if_neg h]
        cases ts with
        | nil => simpa [joinDots] using congrArg (c :: ·) ih
        | cons u us => simpa [joinDots] using congrArg (c :: ·) ih

theorem splitOnDot_injective {s1 s2 : Str} (h : splitOnDot s1 = splitOnDot s2) :
    s1 = s2 := by
  have := congrArg joinDots h
  rwa [joinDots_splitOnDot, joinDots_splitOnDot] at this

theorem joinDots_append (ta tb : List Str) (ha : ta ≠ []) (hb : tb ≠ []) :
    joinDots (ta ++ tb) = joinDots ta ++ '.' :: joinDots tb := by
  induction ta with
  | nil => exact absurd rfl ha
  | cons t ts ih =>
    cases ts with
    | nil =>
      cases tb with
      | nil => exact absurd rfl hb
      | cons u us => simp [joinDots]
    | cons t2 ts2 =>
      have ih2 := ih (by simp)
      show t ++ '.' :: joinDots (t2 :: (ts2 ++ tb)) =
        (t ++ '.' :: joinDots (t2 :: ts2)) ++ '.' :: joinDots tb
      rw [show t2 :: (ts2 ++ tb) = (t2 :: ts2) ++ tb from rfl, ih2]
      simp

/-! ## Association-list lemmas -/

theorem lookupKey_mem {κ ν : Type} [DecidableEq κ] {k : κ} {v : ν} {l : List (κ × ν)}
    (h : lookupKey k l = some v) : (k, v) ∈ l := by
  induction l with
  | nil => simp [lookupKey] at h
  | cons p rest ih =>
    by_cases hp : p.1 = k
    · rw [lookupKey, if_pos hp] at h
      cases p with
      | mk a b =>
        obtain rfl : b = v := by injection h
        obtain rfl : a = k := hp
        exact List.mem_cons_self _ _
    · rw [lookupKey, if_neg hp] at h
      exact List.mem_cons_of_mem _ (ih h)

theorem mem_keys_of_lookupKey {κ ν : Type} [DecidableEq κ] {k : κ} {v : ν} {l : List (κ × ν)}
    (h : lookupKey k l = some v) : k ∈ l.map Prod.fst := by
  exact List.mem_map.mpr ⟨(k, v), lookupKey_mem h, rfl⟩

theorem lookupKey_eq_none {κ ν : Type} [DecidableEq κ] {k : κ} {l : List (κ × ν)}
    (h : k ∉ l.map Prod.fst) : lookupKey k l = none := by
  induction l with
  | nil => rfl
  | cons p rest ih =>
    simp only [List.map_cons, List.mem_cons, not_or] at h
    rw [lookupKey, if_neg (fun hp => h.1 hp.symm)]
    exact ih h.2

theorem not_mem_keys_of_lookupKey_none {κ ν : Type} [DecidableEq κ] {k : κ} {l : List (κ × ν)}
    (h : lookupKey k l = none) : k ∉ l.map Prod.fst := by
  induction l with
  | nil => simp
  | cons q rest ih =>
    by_cases hq : q.1 = k
    · rw [lookupKey, if_pos hq] at h
      exact Option.noConfusion h
    · rw [lookupKey, if_neg hq] at h
      simp only [List.map_cons, List.mem_cons, not_or]
      exact ⟨fun he => hq he.symm, ih h⟩

theorem lookupKey_cons_self {κ ν : Type} [DecidableEq κ] (k : κ) (v : ν) (l : List (κ × ν)) :
    lookupKey k ((k, v) :: l) = some v := by
  rw [lookupKey, if_pos rfl]

theorem lookupKey_cons_ne {κ ν : Type} [DecidableEq κ] {k k2 : κ} (v : ν) (l : List (κ × ν))
    (h : k ≠ k2) : lookupKey k2 ((k, v) :: l) = lookupKey k2 l := by
  rw [lookupKey, if_neg h]

theorem eraseKey_sublist {κ ν : Type} [DecidableEq κ] (k : κ) (l : List (κ × ν)) :
    (eraseKey k l).Sublist l := by
  induction l with
  | nil => simp [eraseKey]
  | cons p rest ih =>
    rw [eraseKey]
    by_cases hp : p.1 = k
    · rw [if_pos hp]
      exact (List.sublist_cons_self p rest)
    · rw [if_neg hp]
      exact List.Sublist.cons₂ p ih

theorem keys_eraseKey_sublist {κ ν : Type} [DecidableEq κ] (k : κ) (l : List (κ × ν)) :
    ((eraseKey k l).map Prod.fst).Sublist (l.map Prod.fst) :=
  (eraseKey_sublist k l).map Prod.fst

theorem lookupKey_eraseKey_ne {κ ν : Type} [DecidableEq κ] {k k2 : κ} {l : List (κ × ν)}
    (h : k2 ≠ k) : lookupKey k2 (eraseKey k l) = lookupKey k2 l := by
  induction l with
  | nil => rfl
  | cons p rest ih =>
    rw [eraseKey]
    by_cases hp : p.1 = k
    · rw [if_pos hp, lookupKey, if_neg (by rw [hp]; exact fun he => h he.symm)]
    · rw [if_neg hp, lookupKey, lookupKey]
      by_cases hp2 : p.1 = k2
      · rw [if_pos hp2, if_pos hp2]
      · rw [if_neg hp2, if_neg hp2, ih]

theorem lookupKey_eraseKey_self {κ ν : Type} [DecidableEq κ] {k : κ} {l : List (κ × ν)}
    (hnd : (l.map Prod.fst).Nodup) : lookupKey k (eraseKey k l) = none := by
  induction l with
  | nil => rfl
  | cons p rest ih =>
    simp only [List.map_cons, List.nodup_cons] at hnd
    rw [eraseKey]
    by_cases hp : p.1 = k
    · rw [if_pos hp]
      subst hp
      exact lookupKey_eq_none hnd.1
    · rw [if_neg hp, lookupKey, if_neg hp]
      exact ih hnd.2

theorem length_eraseKey {κ ν : Type} [DecidableEq κ] {k : κ} {v : ν} {l : List (κ × ν)}
    (h : lookupKey k l = some v) : (eraseKey k l).length + 1 = l.length := by
  induction l with
  | nil => simp [lookupKey] at h
  | cons p rest ih =>
    rw [eraseKey]
    by_cases hp : p.1 = k
    · rw [if_pos hp]
      simp
    · rw [lookupKey, if_neg hp] at h
      rw [if_neg hp]
      simp only [List.length_cons]
      rw [← ih h]

theorem keys_adjustRef (f : Nat → Nat) (k : Str) (l : List (Str × SharedSymbol)) :
    (adjustRef f k l).map Prod.fst = l.map Prod.fst := by
  induction l with
  | nil => rfl
  | cons p rest ih =>
    rw [adjustRef]
    by_cases hp : p.1 = k
    · rw [if_pos hp]
      simp
    · rw [if_neg hp]
      simp [ih]

theorem length_adjustRef (f : Nat → Nat) (k : Str) (l : List (Str × SharedSymbol)) :
    (adjustRef f k l).length = l.length := by
  have := congrArg List.length (keys_adjustRef f k l)
  simpa using this

theorem lookupKey_adjustRef_self (f : Nat → Nat) (k : Str) (l : List (Str × SharedSymbol)) :
    lookupKey k (adjustRef f k l) =
      (lookupKey k l).map (fun ss => ⟨ss.symbol, f ss.ref_count⟩) := by
  induction l with
  | nil => rfl
  | cons p rest ih =>
    rw [adjustRef]
    by_cases hp : p.1 = k
    · rw [if_pos hp, lookupKey, if_pos hp, lookupKey, if_pos hp]
      rfl
    · rw [if_neg hp, lookupKey, if_neg hp, lookupKey, if_neg hp, ih]

theorem lookupKey_adjustRef_ne (f : Nat → Nat) {k k2 : Str} (l : List (Str × SharedSymbol))
    (h : k2 ≠ k) : lookupKey k2 (adjustRef f k l) = lookupKey k2 l := by
  induction l with
  | nil => rfl
  | cons p rest ih =>
    rw [adjustRef]
    by_cases hp : p.1 = k
    · rw [if_pos hp, lookupKey, if_neg (by rw [hp]; exact fun he => h he.symm), lookupKey,
        if_neg (by rw [hp]; exact fun he => h he.symm)]
    · rw [if_neg hp, lookupKey, lookupKey]
      by_cases hp2 : p.1 = k2
      · rw [if_pos hp2, if_pos hp2]
      · rw [if_neg hp2, if_neg hp2, ih]

theorem tableInv_initTable : TableInv initTable := by
  refine ⟨?_, ?_, ?_, ?_, ?_, ?_, ?_, ?_, ?_, ?_, ?_, ?_, ?_, ?_⟩ <;>
    first
      | simp [initTable, lookupKey]
      | norm_num [initTable]

/-! ## Equation lemmas for the table operations -/

theorem toSymbol_eq_hit {T : SymbolTable} {sv : Str} {ss : SharedSymbol}
    (henc : lookupKey sv T.encode_map = some ss) :
    T.toSymbol sv = some (ss.symbol,
      { T with encode_map := adjustRef (fun rc => rc + 1) sv T.encode_map }) := by
  unfold SymbolTable.toSymbol
  rw [henc]

theorem toSymbol_eq_miss {T : SymbolTable} {sv : Str}
    (henc : lookupKey sv T.encode_map = none)
    (hdec : lookupKey T.next_symbol T.decode_map = none) :
    T.toSymbol sv =
      (SymbolTable.newSymbol
        { T with encode_map := (sv, ⟨T.next_symbol, 1⟩) :: T.encode_map,
                 decode_map := (T.next_symbol, sv) :: T.decode_map }).map
        (fun T2 => (T.next_symbol, T2)) := by
  unfold SymbolTable.toSymbol
  rw [henc, hdec]

theorem toSymbol_eq_assertFail {T : SymbolTable} {sv : Str} {tok : Str}
    (henc : lookupKey sv T.encode_map = none)
    (hdec : lookupKey T.next_symbol T.decode_map = some tok) :
    T.toSymbol sv = none := by
  unfold SymbolTable.toSymbol
  rw [henc, hdec]

/-- Complete case analysis of a successful SymbolTable::newSymbol call. -/
theorem newSymbol_cases {T T2 : SymbolTable} (h : T.newSymbol = some T2) :
    (T.pool = [] ∧ (T.monotonic_counter + 1) % 2 ^ 32 ≠ 0 ∧
      T2 = { T with next_symbol := (T.monotonic_counter + 1) % 2 ^ 32,
                    monotonic_counter := (T.monotonic_counter + 1) % 2 ^ 32 }) ∨
    (∃ s rest, T.pool = s :: rest ∧ T.monotonic_counter ≠ 0 ∧
      T2 = { T with next_symbol := s, pool := rest }) := by
  unfold SymbolTable.newSymbol at h
  by_cases hpool : T.pool = []
  · rw [if_pos hpool] at h
    by_cases hz : (T.monotonic_counter + 1) % 2 ^ 32 = 0
    · rw [if_pos hz] at h
      exact Option.noConfusion h
    · rw [if_neg hz] at h
      exact Or.inl ⟨hpool, hz, (Option.some.inj h).symm⟩
  · rw [if_neg hpool] at h
    by_cases hz : T.monotonic_counter = 0
    · rw [if_pos hz] at h
      exact Option.noConfusion h
    · rw [if_neg hz] at h
      obtain ⟨s, rest, hsr⟩ := List.exists_cons_of_ne_nil hpool
      refine Or.inr ⟨s, rest, hsr, hz, ?_⟩
      rw [← Option.some.inj h, hsr]
      simp

/-- Complete case analysis of a successful SymbolTable::toSymbol call. -/
theorem toSymbol_cases {T : SymbolTable} {sv : Str} {sym : Nat} {T1 : SymbolTable}
    (h : T.toSymbol sv = some (sym, T1)) :
    (∃ ss, lookupKey sv T.encode_map = some ss ∧ sym = ss.symbol ∧
      T1.encode_map = adjustRef (fun rc => rc + 1) sv T.encode_map ∧
      T1.decode_map = T.decode_map ∧ T1.pool = T.pool ∧
      T1.next_symbol = T.next_symbol ∧ T1.monotonic_counter = T.monotonic_counter)
    ∨ (lookupKey sv T.encode_map = none ∧ lookupKey T.next_symbol T.decode_map = none ∧
      sym = T.next_symbol ∧
      T1.encode_map = (sv, ⟨T.next_symbol, 1⟩) :: T.encode_map ∧
      T1.decode_map = (T.next_symbol, sv) :: T.decode_map ∧
      ((T.pool = [] ∧ (T.monotonic_counter + 1) % 2 ^ 32 ≠ 0 ∧
        T1.monotonic_counter = (T.monotonic_counter + 1) % 2 ^ 32 ∧
        T1.next_symbol = (T.monotonic_counter + 1) % 2 ^ 32 ∧ T1.pool = []) ∨
       (∃ s rest, T.pool = s :: rest ∧ T.monotonic_counter ≠ 0 ∧
        T1.monotonic_counter = T.monotonic_counter ∧ T1.next_symbol = s ∧ T1.pool = rest))) := by
  rcases henc : lookupKey sv T.encode_map with _ | ss
  · rcases hdec : lookupKey T.next_symbol T.decode_map with _ | tok
    · have h3 := (toSymbol_eq_miss henc hdec).symm.trans h
      obtain ⟨T2, hNS, hf⟩ := Option.map_eq_some'.mp h3
      have hsym : T.next_symbol = sym := congrArg Prod.fst hf
      have hT1 : T2 = T1 := congrArg Prod.snd hf
      rcases newSymbol_cases hNS with ⟨hpool, hz, hT2⟩ | ⟨s, rest, hpool, hz, hT2⟩
      · refine Or.inr ⟨rfl, rfl, hsym.symm, ?_, ?_, Or.inl ⟨hpool, hz, ?_, ?_, ?_⟩⟩ <;>
          rw [← hT1, hT2] <;> try exact hpool
      · refine Or.inr ⟨rfl, rfl, hsym.symm, ?_, ?_, Or.inr ⟨s, rest, hpool, hz, ?_, ?_, ?_⟩⟩ <;>
          rw [← hT1, hT2] <;> try rw [show T.pool = s :: rest from hpool]
    · rw [toSymbol_eq_assertFail henc hdec] at h
      exact Option.noConfusion h
  · have h3 := (toSymbol_eq_hit henc).symm.trans h
    have hp := Option.some.inj h3
    have hsym : ss.symbol = sym := congrArg Prod.fst hp
    have hT1 : ({ T with encode_map := adjustRef (fun rc => rc + 1) sv T.encode_map }
        : SymbolTable) = T1 := congrArg Prod.snd hp
    refine Or.inl ⟨ss, rfl, hsym.symm, ?_, ?_, ?_, ?_, ?_⟩ <;> rw [← hT1]

theorem lookupKey_isSome_of_mem_keys {κ ν : Type} [DecidableEq κ] {k : κ} {l : List (κ × ν)}
    (h : k ∈ l.map Prod.fst) : ∃ v, lookupKey k l = some v := by
  induction l with
  | nil => simp at h
  | cons p rest ih =>
    by_cases hp : p.1 = k
    · exact ⟨p.2, by rw [lookupKey, if_pos hp]⟩
    · rw [lookupKey, if_neg hp]
      simp only [List.map_cons, List.mem_cons] at h
      rcases h with he | hm
      · exact absurd he.symm hp
      · exact ih hm

theorem ne_of_lookup_some_none {κ ν : Type} [DecidableEq κ] {k1 k2 : κ} {l : List (κ × ν)}
    {v : ν} (h1 : lookupKey k1 l = some v) (h2 : lookupKey k2 l = none) : k1 ≠ k2 := by
  intro he
  rw [he, h2] at h1
  exact Option.noConfusion h1

/-- toSymbol preserves the table invariant. -/
theorem tableInv_toSymbol {T : SymbolTable} {sv : Str} {sym : Nat} {T1 : SymbolTable}
    (hI : TableInv T) (h : T.toSymbol sv = some (sym, T1)) : TableInv T1 := by
  rcases toSymbol_cases h with
    ⟨ss, henc, hsymEq, hE, hD, hP, hN, hM⟩ |
    ⟨henc, hdec, hsymEq, hE, hD, hrest⟩
  · refine ⟨?_, ?_, ?_, ?_, ?_, ?_, ?_, ?_, ?_, ?_, ?_, ?_, ?_, ?_⟩
    · rw [hE, keys_adjustRef]
      exact hI.encNodup
    · rw [hD]
      exact hI.decNodup
    · intro sv' ss' hl
      rw [hE] at hl
      rw [hD]
      by_cases hc : sv' = sv
      · subst hc
        rw [lookupKey_adjustRef_self, henc, Option.map_some'] at hl
        obtain rfl := Option.some.inj hl
        exact hI.encToDec sv' ss henc
      · rw [lookupKey_adjustRef_ne _ _ hc] at hl
        exact hI.encToDec sv' ss' hl
    · intro sym' sv' hl
      rw [hD] at hl
      rw [hE]
      obtain ⟨rc, hold⟩ := hI.decToEnc sym' sv' hl
      by_cases hc : sv' = sv
      · subst hc
        rw [lookupKey_adjustRef_self, hold, Option.map_some']
        exact ⟨rc + 1, rfl⟩
      · rw [lookupKey_adjustRef_ne _ _ hc]
        exact ⟨rc, hold⟩
    · rw [hE, hD, length_adjustRef]
      exact hI.lenEq
    · intro sv' ss' hl
      rw [hE] at hl
      by_cases hc : sv' = sv
      · subst hc
        rw [lookupKey_adjustRef_self, henc, Option.map_some'] at hl
        obtain rfl := Option.some.inj hl
        exact Nat.succ_le_succ (Nat.zero_le _)
      · rw [lookupKey_adjustRef_ne _ _ hc] at hl
        exact hI.refPos sv' ss' hl
    · rw [hN, hD]
      exact hI.nextFresh
    · intro s hs
      rw [hP] at hs
      rw [hD]
      exact hI.poolFresh s hs
    · rw [hP]
      exact hI.poolNodup
    · rw [hN, hP]
      exact hI.nextPool
    · intro sym' sv' hl
      rw [hD] at hl
      rw [hM]
      exact hI.decBound sym' sv' hl
    · intro s hs
      rw [hP] at hs
      rw [hM]
      exact hI.poolBound s hs
    · rw [hN, hM]
      exact hI.nextBound
    · rw [hM]
      exact hI.monoLt
  · have hsvNot := not_mem_keys_of_lookupKey_none henc
    have hnNot := not_mem_keys_of_lookupKey_none hdec
    refine ⟨?_, ?_, ?_, ?_, ?_, ?_, ?_, ?_, ?_, ?_, ?_, ?_, ?_, ?_⟩
    · rw [hE]
      simp only [List.map_cons, List.nodup_cons]
      exact ⟨hsvNot, hI.encNodup⟩
    · rw [hD]
      simp only [List.map_cons, List.nodup_cons]
      exact ⟨hnNot, hI.decNodup⟩
    · intro sv' ss' hl
      rw [hE] at hl
      rw [hD]
      by_cases hc : sv = sv'
      · subst hc
        rw [lookupKey_cons_self] at hl
        obtain rfl := Option.some.inj hl
        exact lookupKey_cons_self _ _ _
      · rw [lookupKey_cons_ne _ _ hc] at hl
        have hold := hI.encToDec sv' ss' hl
        rw [lookupKey_cons_ne _ _ (ne_of_lookup_some_none hold hdec).symm]
        exact hold
    · intro sym' sv' hl
      rw [hD] at hl
      rw [hE]
      by_cases hc : T.next_symbol = sym'
      · subst hc
        rw [lookupKey_cons_self] at hl
        obtain rfl := Option.some.inj hl
        exact ⟨1, lookupKey_cons_self _ _ _⟩
      · rw [lookupKey_cons_ne _ _ hc] at hl
        obtain ⟨rc, hold⟩ := hI.decToEnc sym' sv' hl
        rw [lookupKey_cons_ne _ _ (ne_of_lookup_some_none hold henc).symm]
        exact ⟨rc, hold⟩
    · rw [hE, hD]
      simp only [List.length_cons]
      rw [hI.lenEq]
    · intro sv' ss' hl
      rw [hE] at hl
      by_cases hc : sv = sv'
      · subst hc
        rw [lookupKey_cons_self] at hl
        obtain rfl := Option.some.inj hl
        exact Nat.le_refl 1
      · rw [lookupKey_cons_ne _ _ hc] at hl
        exact hI.refPos sv' ss' hl
    · -- nextFresh for the re-staged symbol
      rcases hrest with ⟨hpool, hz, hM1, hN1, hP1⟩ | ⟨s, rest, hpool, hz, hM1, hN1, hP1⟩
      · have hmono1 : T.monotonic_counter + 1 < 2 ^ 32 := by
          rcases Nat.lt_or_ge (T.monotonic_counter + 1) (2 ^ 32) with hlt | hge
          · exact hlt
          · exfalso
            have : T.monotonic_counter + 1 = 2 ^ 32 := le_antisymm (by exact hI.monoLt) hge
            rw [this] at hz
            exact hz (Nat.mod_self _)
        rw [hN1, hD, Nat.mod_eq_of_lt hmono1]
        have hne : T.monotonic_counter + 1 ≠ T.next_symbol := by
          have := hI.nextBound
          omega
        rw [lookupKey_cons_ne _ _ (fun he => hne he.symm)]
        apply lookupKey_eq_none
        intro hmem
        obtain ⟨v, hv⟩ := lookupKey_isSome_of_mem_keys hmem
        have := hI.decBound _ _ hv
        omega
      · rw [hN1, hD]
        have hsMem : s ∈ T.pool := by rw [hpool]; simp
        have hne : s ≠ T.next_symbol := by
          intro he
          exact hI.nextPool (he ▸ hsMem)
        rw [lookupKey_cons_ne _ _ (fun he => hne he.symm)]
        exact hI.poolFresh s hsMem
    · intro s2 hs2
      rcases hrest with ⟨hpool, hz, hM1, hN1, hP1⟩ | ⟨s, rest, hpool, hz, hM1, hN1, hP1⟩
      · rw [hP1] at hs2
        simp at hs2
      · rw [hP1] at hs2
        have hMem : s2 ∈ T.pool := by rw [hpool]; simp [hs2]
        have hne : s2 ≠ T.next_symbol := by
          intro he
          exact hI.nextPool (he ▸ hMem)
        rw [hD, lookupKey_cons_ne _ _ (fun he => hne he.symm)]
        exact hI.poolFresh s2 hMem
    · rcases hrest with ⟨hpool, hz, hM1, hN1, hP1⟩ | ⟨s, rest, hpool, hz, hM1, hN1, hP1⟩
      · rw [hP1]
        exact List.nodup_nil
      · rw [hP1]
        have := hI.poolNodup
        rw [hpool] at this
        exact (List.nodup_cons.mp this).2
    · rcases hrest with ⟨hpool, hz, hM1, hN1, hP1⟩ | ⟨s, rest, hpool, hz, hM1, hN1, hP1⟩
      · rw [hP1]
        simp
      · rw [hN1, hP1]
        have := hI.poolNodup
        rw [hpool] at this
        exact (List.nodup_cons.mp this).1
    · intro sym' sv' hl
      rw [hD] at hl
      rcases hrest with ⟨hpool, hz, hM1, hN1, hP1⟩ | ⟨s, rest, hpool, hz, hM1, hN1, hP1⟩
      · rw [hM1]
        have hub : T.monotonic_counter ≤ (T.monotonic_counter + 1) % 2 ^ 32 := by
          have hmono1 : T.monotonic_counter + 1 < 2 ^ 32 := by
            rcases Nat.lt_or_ge (T.monotonic_counter + 1) (2 ^ 32) with hlt | hge
            · exact hlt
            · exfalso
              have : T.monotonic_counter + 1 = 2 ^ 32 := le_antisymm (by exact hI.monoLt) hge
              rw [this] at hz
              exact hz (Nat.mod_self _)
          rw [Nat.mod_eq_of_lt hmono1]
          omega
        by_cases hc : T.next_symbol = sym'
        · subst hc
          exact le_trans hI.nextBound hub
        · rw [lookupKey_cons_ne _ _ hc] at hl
          exact le_trans (hI.decBound sym' sv' hl) hub
      · rw [hM1]
        by_cases hc : T.next_symbol = sym'
        · subst hc
          exact hI.nextBound
        · rw [lookupKey_cons_ne _ _ hc] at hl
          exact hI.decBound sym' sv' hl
    · intro s2 hs2
      rcases hrest with ⟨hpool, hz, hM1, hN1, hP1⟩ | ⟨s, rest, hpool, hz, hM1, hN1, hP1⟩
      · rw [hP1] at hs2
        simp at hs2
      · rw [hP1] at hs2
        rw [hM1]
        apply hI.poolBound
        rw [hpool]
        simp [hs2]
    · rcases hrest with ⟨hpool, hz, hM1, hN1, hP1⟩ | ⟨s, rest, hpool, hz, hM1, hN1, hP1⟩
      · rw [hN1, hM1]
      · rw [hN1, hM1]
        apply hI.poolBound
        rw [hpool]
        simp
    · rcases hrest with ⟨hpool, hz, hM1, hN1, hP1⟩ | ⟨s, rest, hpool, hz, hM1, hN1, hP1⟩
      · rw [hM1]
        exact Nat.mod_lt _ (by norm_num)
      · rw [hM1]
        exact hI.monoLt

theorem freeSymbol_eq_noneD {T : SymbolTable} {sym : Nat}
    (hdec : lookupKey sym T.decode_map = none) : T.freeSymbol sym = none := by
  unfold SymbolTable.freeSymbol
  rw [hdec]

theorem freeSymbol_eq_noneE {T : SymbolTable} {sym : Nat} {sv : Str}
    (hdec : lookupKey sym T.decode_map = some sv)
    (henc : lookupKey sv T.encode_map = none) : T.freeSymbol sym = none := by
  simp only [SymbolTable.freeSymbol, hdec, henc]

theorem freeSymbol_eq_found {T : SymbolTable} {sym : Nat} {sv : Str} {ss : SharedSymbol}
    (hdec : lookupKey sym T.decode_map = some sv)
    (henc : lookupKey sv T.encode_map = some ss) :
    T.freeSymbol sym =
      if ss.ref_count - 1 = 0 then
        some { T with encode_map := eraseKey sv T.encode_map,
                      decode_map := eraseKey sym T.decode_map,
                      pool := sym :: T.pool }
      else
        some { T with encode_map := adjustRef (fun rc => rc - 1) sv T.encode_map } := by
  simp only [SymbolTable.freeSymbol, hdec, henc]

theorem incRefSymbol_eq_noneD {T : SymbolTable} {sym : Nat}
    (hdec : lookupKey sym T.decode_map = none) : T.incRefSymbol sym = none := by
  unfold SymbolTable.incRefSymbol
  rw [hdec]

theorem incRefSymbol_eq_found {T : SymbolTable} {sym : Nat} {sv : Str} {ss : SharedSymbol}
    (hdec : lookupKey sym T.decode_map = some sv)
    (henc : lookupKey sv T.encode_map = some ss) :
    T.incRefSymbol sym =
      some { T with encode_map := adjustRef (fun rc => rc + 1) sv T.encode_map } := by
  simp only [SymbolTable.incRefSymbol, hdec, henc]

/-- Complete case analysis of a successful SymbolTable::free loop iteration. -/
theorem freeSymbol_cases {T : SymbolTable} {sym : Nat} {T1 : SymbolTable}
    (h : T.freeSymbol sym = some T1) :
    ∃ sv ss, lookupKey sym T.decode_map = some sv ∧ lookupKey sv T.encode_map = some ss ∧
      T1.next_symbol = T.next_symbol ∧ T1.monotonic_counter = T.monotonic_counter ∧
      ((ss.ref_count - 1 = 0 ∧ T1.encode_map = eraseKey sv T.encode_map ∧
        T1.decode_map = eraseKey sym T.decode_map ∧ T1.pool = sym :: T.pool) ∨
       (ss.ref_count - 1 ≠ 0 ∧ T1.encode_map = adjustRef (fun rc => rc - 1) sv T.encode_map ∧
        T1.decode_map = T.decode_map ∧ T1.pool = T.pool)) := by
  rcases hdec : lookupKey sym T.decode_map with _ | sv
  · rw [freeSymbol_eq_noneD hdec] at h
    exact Option.noConfusion h
  · rcases henc : lookupKey sv T.encode_map with _ | ss
    · rw [freeSymbol_eq_noneE hdec henc] at h
      exact Option.noConfusion h
    · have h3 := (freeSymbol_eq_found hdec henc).symm.trans h
      by_cases hrc : ss.ref_count - 1 = 0
      · rw [if_pos hrc] at h3
        have hT1 := Option.some.inj h3
        refine ⟨sv, ss, rfl, henc, ?_, ?_, Or.inl ⟨hrc, ?_, ?_, ?_⟩⟩ <;> rw [← hT1]
      · rw [if_neg hrc] at h3
        have hT1 := Option.some.inj h3
        refine ⟨sv, ss, rfl, henc, ?_, ?_, Or.inr ⟨hrc, ?_, ?_, ?_⟩⟩ <;> rw [← hT1]

/-- Complete case analysis of a successful SymbolTable::incRefCount iteration. -/
theorem incRefSymbol_cases {T : SymbolTable} {sym : Nat} {T1 : SymbolTable}
    (h : T.incRefSymbol sym = some T1) :
    ∃ sv ss, lookupKey sym T.decode_map = some sv ∧ lookupKey sv T.encode_map = some ss ∧
      T1.encode_map = adjustRef (fun rc => rc + 1) sv T.encode_map ∧
      T1.decode_map = T.decode_map ∧ T1.pool = T.pool ∧
      T1.next_symbol = T.next_symbol ∧ T1.monotonic_counter = T.monotonic_counter := by
  rcases hdec : lookupKey sym T.decode_map with _ | sv
  · rw [incRefSymbol_eq_noneD hdec] at h
    exact Option.noConfusion h
  · rcases henc : lookupKey sv T.encode_map with _ | ss
    · have hnone : T.incRefSymbol sym = none := by
        simp only [SymbolTable.incRefSymbol, hdec, henc]
      rw [hnone] at h
      exact Option.noConfusion h
    · have h3 := (incRefSymbol_eq_found hdec henc).symm.trans h
      have hT1 := Option.some.inj h3
      refine ⟨sv, ss, rfl, henc, ?_, ?_, ?_, ?_, ?_⟩ <;> rw [← hT1]

/-- Adjusting the ref count of one present entry preserves the invariant,
provided the adjusted count stays positive. -/
theorem tableInv_adjustPres {T T1 : SymbolTable} (hI : TableInv T) (sv : Str) (f : Nat → Nat)
    (hf : ∀ ss, lookupKey sv T.encode_map = some ss → 1 ≤ f ss.ref_count)
    (hE : T1.encode_map = adjustRef f sv T.encode_map)
    (hD : T1.decode_map = T.decode_map) (hP : T1.pool = T.pool)
    (hN : T1.next_symbol = T.next_symbol) (hM : T1.monotonic_counter = T.monotonic_counter) :
    TableInv T1 := by
  refine ⟨?_, ?_, ?_, ?_, ?_, ?_, ?_, ?_, ?_, ?_, ?_, ?_, ?_, ?_⟩
  · rw [hE, keys_adjustRef]
    exact hI.encNodup
  · rw [hD]
    exact hI.decNodup
  · intro sv' ss' hl
    rw [hE] at hl
    rw [hD]
    by_cases hc : sv' = sv
    · subst hc
      rw [lookupKey_adjustRef_self] at hl
      rcases henc : lookupKey sv' T.encode_map with _ | ss
      · rw [henc] at hl
        exact Option.noConfusion hl
      · rw [henc, Option.map_some'] at hl
        obtain rfl := Option.some.inj hl
        exact hI.encToDec sv' ss henc
    · rw [lookupKey_adjustRef_ne _ _ hc] at hl
      exact hI.encToDec sv' ss' hl
  · intro sym' sv' hl
    rw [hD] at hl
    rw [hE]
    obtain ⟨rc, hold⟩ := hI.decToEnc sym' sv' hl
    by_cases hc : sv' = sv
    · subst hc
      rw [lookupKey_adjustRef_self, hold, Option.map_some']
      exact ⟨f rc, rfl⟩
    · rw [lookupKey_adjustRef_ne _ _ hc]
      exact ⟨rc, hold⟩
  · rw [hE, hD, length_adjustRef]
    exact hI.lenEq
  · intro sv' ss' hl
    rw [hE] at hl
    by_cases hc : sv' = sv
    · subst hc
      rw [lookupKey_adjustRef_self] at hl
      rcases henc : lookupKey sv' T.encode_map with _ | ss
      · rw [henc] at hl
        exact Option.noConfusion hl
      · rw [henc, Option.map_some'] at hl
        obtain rfl := Option.some.inj hl
        exact hf ss henc
    · rw [lookupKey_adjustRef_ne _ _ hc] at hl
      exact hI.refPos sv' ss' hl
  · rw [hN, hD]
    exact hI.nextFresh
  · intro s hs
    rw [hP] at hs
    rw [hD]
    exact hI.poolFresh s hs
  · rw [hP]
    exact hI.poolNodup
  · rw [hN, hP]
    exact hI.nextPool
  · intro sym' sv' hl
    rw [hD] at hl
    rw [hM]
    exact hI.decBound sym' sv' hl
  · intro s hs
    rw [hP] at hs
    rw [hM]
    exact hI.poolBound s hs
  · rw [hN, hM]
    exact hI.nextBound
  · rw [hM]
    exact hI.monoLt

/-- Erasing one symbol (the last reference) from both maps and pushing it onto
the pool preserves the invariant. -/
theorem tableInv_erasePres {T T1 : SymbolTable} (hI : TableInv T) {sym : Nat} {sv : Str}
    {ss : SharedSymbol}
    (hdec : lookupKey sym T.decode_map = some sv)
    (henc : lookupKey sv T.encode_map = some ss)
    (hE : T1.encode_map = eraseKey sv T.encode_map)
    (hD : T1.decode_map = eraseKey sym T.decode_map)
    (hP : T1.pool = sym :: T.pool)
    (hN : T1.next_symbol = T.next_symbol) (hM : T1.monotonic_counter = T.monotonic_counter) :
    TableInv T1 := by
  have hssSym : ss.symbol = sym := by
    obtain ⟨rc, hold⟩ := hI.decToEnc sym sv hdec
    rw [henc] at hold
    obtain rfl := Option.some.inj hold
    rfl
  refine ⟨?_, ?_, ?_, ?_, ?_, ?_, ?_, ?_, ?_, ?_, ?_, ?_, ?_, ?_⟩
  · rw [hE]
    exact hI.encNodup.sublist (keys_eraseKey_sublist sv T.encode_map)
  · rw [hD]
    exact hI.decNodup.sublist (keys_eraseKey_sublist sym T.decode_map)
  · intro sv' ss' hl
    rw [hE] at hl
    rw [hD]
    by_cases hc : sv' = sv
    · subst hc
      rw [lookupKey_eraseKey_self hI.encNodup] at hl
      exact Option.noConfusion hl
    · rw [lookupKey_eraseKey_ne hc] at hl
      have hold := hI.encToDec sv' ss' hl
      have hne : ss'.symbol ≠ sym := by
        intro he
        rw [he, hdec] at hold
        exact hc (Option.some.inj hold).symm
      rw [lookupKey_eraseKey_ne hne]
      exact hold
  · intro sym' sv' hl
    rw [hD] at hl
    rw [hE]
    by_cases hc : sym' = sym
    · subst hc
      rw [lookupKey_eraseKey_self hI.decNodup] at hl
      exact Option.noConfusion hl
    · rw [lookupKey_eraseKey_ne hc] at hl
      obtain ⟨rc, hold⟩ := hI.decToEnc sym' sv' hl
      have hne : sv' ≠ sv := by
        intro he
        rw [he, henc] at hold
        have := congrArg SharedSymbol.symbol (Option.some.inj hold)
        rw [hssSym] at this
        exact hc this.symm
      rw [lookupKey_eraseKey_ne hne]
      exact ⟨rc, hold⟩
  · rw [hE, hD]
    have h1 := length_eraseKey henc
    have h2 := length_eraseKey hdec
    have h3 := hI.lenEq
    omega
  · intro sv' ss' hl
    rw [hE] at hl
    by_cases hc : sv' = sv
    · subst hc
      rw [lookupKey_eraseKey_self hI.encNodup] at hl
      exact Option.noConfusion hl
    · rw [lookupKey_eraseKey_ne hc] at hl
      exact hI.refPos sv' ss' hl
  · rw [hN, hD]
    by_cases hc : T.next_symbol = sym
    · subst hc
      exact lookupKey_eraseKey_self hI.decNodup
    · rw [lookupKey_eraseKey_ne hc]
      exact hI.nextFresh
  · intro s hs
    rw [hP] at hs
    rw [hD]
    by_cases hc : s = sym
    · subst hc
      exact lookupKey_eraseKey_self hI.decNodup
    · rw [lookupKey_eraseKey_ne hc]
      rcases List.mem_cons.mp hs with he | hm
      · exact absurd he hc
      · exact hI.poolFresh s hm
  · rw [hP]
    refine List.nodup_cons.mpr ⟨?_, hI.poolNodup⟩
    intro hmem
    have := hI.poolFresh sym hmem
    rw [hdec] at this
    exact Option.noConfusion this
  · rw [hN, hP]
    intro hmem
    rcases List.mem_cons.mp hmem with he | hm
    · have hnf := hI.nextFresh
      rw [he, hdec] at hnf
      exact Option.noConfusion hnf
    · exact hI.nextPool hm
  · intro sym' sv' hl
    rw [hD] at hl
    rw [hM]
    by_cases hc : sym' = sym
    · subst hc
      rw [lookupKey_eraseKey_self hI.decNodup] at hl
      exact Option.noConfusion hl
    · rw [lookupKey_eraseKey_ne hc] at hl
      exact hI.decBound sym' sv' hl
  · intro s hs
    rw [hP] at hs
    rw [hM]
    rcases List.mem_cons.mp hs with he | hm
    · rw [he]
      exact hI.decBound sym sv hdec
    · exact hI.poolBound s hm
  · rw [hN, hM]
    exact hI.nextBound
  · rw [hM]
    exact hI.monoLt

/-! ## Invariant preservation through whole operations -/

theorem tableInv_freeSymbol {T T1 : SymbolTable} {sym : Nat} (hI : TableInv T)
    (h : T.freeSymbol sym = some T1) : TableInv T1 := by
  obtain ⟨sv, ss, hdec, henc, hN, hM, hcase⟩ := freeSymbol_cases h
  rcases hcase with ⟨hrc, hE, hD, hP⟩ | ⟨hrc, hE, hD, hP⟩
  · exact tableInv_erasePres hI hdec henc hE hD hP hN hM
  · refine tableInv_adjustPres hI sv (fun rc => rc - 1) ?_ hE hD hP hN hM
    intro ss' hss'
    rw [henc] at hss'
    obtain rfl := Option.some.inj hss'
    show 1 ≤ ss.ref_count - 1
    omega

theorem tableInv_incRefSymbol {T T1 : SymbolTable} {sym : Nat} (hI : TableInv T)
    (h : T.incRefSymbol sym = some T1) : TableInv T1 := by
  obtain ⟨sv, ss, hdec, henc, hE, hD, hP, hN, hM⟩ := incRefSymbol_cases h
  refine tableInv_adjustPres hI sv (fun rc => rc + 1) ?_ hE hD hP hN hM
  intro ss' hss'
  show 1 ≤ ss'.ref_count + 1
  omega

theorem tableInv_toSymbols {toks : List Str} :
    ∀ {T T1 : SymbolTable} {syms : List Nat}, TableInv T →
      T.toSymbols toks = some (syms, T1) → TableInv T1 := by
  induction toks with
  | nil =>
    intro T T1 syms hI h
    simp only [SymbolTable.toSymbols] at h
    obtain ⟨h1, h2⟩ := Prod.mk.injEq .. ▸ Option.some.inj h
    exact h2 ▸ hI
  | cons tok rest ih =>
    intro T T1 syms hI h
    rcases h1 : T.toSymbol tok with _ | ⟨sym, Ta⟩
    · simp only [SymbolTable.toSymbols, h1] at h
      exact Option.noConfusion h
    · rcases h2 : Ta.toSymbols rest with _ | ⟨syms2, T2⟩
      · simp only [SymbolTable.toSymbols, h1, h2] at h
        exact Option.noConfusion h
      · simp only [SymbolTable.toSymbols, h1, h2] at h
        obtain ⟨hs, hT⟩ := Prod.mk.injEq .. ▸ Option.some.inj h
        exact hT ▸ ih (tableInv_toSymbol hI h1) h2

theorem tableInv_encode {T T1 : SymbolTable} {name : Str} {syms : List Nat} (hI : TableInv T)
    (h : T.encode name = some (syms, T1)) : TableInv T1 := by
  unfold SymbolTable.encode at h
  by_cases hn : name = []
  · rw [if_pos hn] at h
    obtain ⟨h1, h2⟩ := Prod.mk.injEq .. ▸ Option.some.inj h
    exact h2 ▸ hI
  · rw [if_neg hn] at h
    exact tableInv_toSymbols hI h

theorem tableInv_freeSymbols {syms : List Nat} :
    ∀ {T T1 : SymbolTable}, TableInv T → T.freeSymbols syms = some T1 → TableInv T1 := by
  induction syms with
  | nil =>
    intro T T1 hI h
    simp only [SymbolTable.freeSymbols] at h
    exact (Option.some.inj h) ▸ hI
  | cons s rest ih =>
    intro T T1 hI h
    rcases h1 : T.freeSymbol s with _ | Ta
    · simp only [SymbolTable.freeSymbols, h1] at h
      exact Option.noConfusion h
    · simp only [SymbolTable.freeSymbols, h1] at h
      exact ih (tableInv_freeSymbol hI h1) h

theorem tableInv_incRefSymbols {syms : List Nat} :
    ∀ {T T1 : SymbolTable}, TableInv T → T.incRefSymbols syms = some T1 → TableInv T1 := by
  induction syms with
  | nil =>
    intro T T1 hI h
    simp only [SymbolTable.incRefSymbols] at h
    exact (Option.some.inj h) ▸ hI
  | cons s rest ih =>
    intro T T1 hI h
    rcases h1 : T.incRefSymbol s with _ | Ta
    · simp only [SymbolTable.incRefSymbols, h1] at h
      exact Option.noConfusion h
    · simp only [SymbolTable.incRefSymbols, h1] at h
      exact ih (tableInv_incRefSymbol hI h1) h

theorem tableInv_step {T T1 : SymbolTable} (hI : TableInv T) (h : Step T T1) : TableInv T1 := by
  cases h with
  | encode name syms T2 henc => exact tableInv_encode hI henc
  | free syms T2 hfree => exact tableInv_freeSymbols hI hfree
  | incRef syms T2 hinc => exact tableInv_incRefSymbols hI hinc

/-- Every reachable table state satisfies the invariant. -/
theorem tableInv_reachable {T : SymbolTable} (h : Reachable T) : TableInv T := by
  induction h with
  | refl => exact tableInv_initTable
  | tail hab hbc ih => exact tableInv_step ih hbc

/-! ## The monotonic counter never decreases -/

theorem mono_le_toSymbol {T T1 : SymbolTable} {sv : Str} {sym : Nat} (hI : TableInv T)
    (h : T.toSymbol sv = some (sym, T1)) :
    T.monotonic_counter ≤ T1.monotonic_counter := by
  rcases toSymbol_cases h with
    ⟨ss, henc, hsymEq, hE, hD, hP, hN, hM⟩ |
    ⟨henc, hdec, hsymEq, hE, hD, hrest⟩
  · rw [hM]
  · rcases hrest with ⟨hpool, hz, hM1, hN1, hP1⟩ | ⟨s, rest, hpool, hz, hM1, hN1, hP1⟩
    · rw [hM1]
      have hmono1 : T.monotonic_counter + 1 < 2 ^ 32 := by
        have := hI.monoLt
        rcases Nat.lt_or_ge (T.monotonic_counter + 1) (2 ^ 32) with hlt | hge
        · exact hlt
        · exfalso
          have he : T.monotonic_counter + 1 = 2 ^ 32 := by omega
          rw [he] at hz
          exact hz (Nat.mod_self _)
      rw [Nat.mod_eq_of_lt hmono1]
      omega
    · rw [hM1]

theorem mono_le_toSymbols {toks : List Str} :
    ∀ {T T1 : SymbolTable} {syms : List Nat}, TableInv T →
      T.toSymbols toks = some (syms, T1) →
      T.monotonic_counter ≤ T1.monotonic_counter := by
  induction toks with
  | nil =>
    intro T T1 syms hI h
    simp only [SymbolTable.toSymbols] at h
    obtain ⟨h1, h2⟩ := Prod.mk.injEq .. ▸ Option.some.inj h
    rw [h2]
  | cons tok rest ih =>
    intro T T1 syms hI h
    rcases h1 : T.toSymbol tok with _ | ⟨sym, Ta⟩
    · simp only [SymbolTable.toSymbols, h1] at h
      exact Option.noConfusion h
    · rcases h2 : Ta.toSymbols rest with _ | ⟨syms2, T2⟩
      · simp only [SymbolTable.toSymbols, h1, h2] at h
        exact Option.noConfusion h
      · simp only [SymbolTable.toSymbols, h1, h2] at h
        obtain ⟨hs, hT⟩ := Prod.mk.injEq .. ▸ Option.some.inj h
        exact le_trans (mono_le_toSymbol hI h1)
          (hT ▸ ih (tableInv_toSymbol hI h1) h2)

theorem mono_eq_freeSymbols {syms : List Nat} :
    ∀ {T T1 : SymbolTable}, T.freeSymbols syms = some T1 →
      T1.monotonic_counter = T.monotonic_counter := by
  induction syms with
  | nil =>
    intro T T1 h
    simp only [SymbolTable.freeSymbols] at h
    rw [Option.some.inj h]
  | cons s rest ih =>
    intro T T1 h
    rcases h1 : T.freeSymbol s with _ | Ta
    · simp only [SymbolTable.freeSymbols, h1] at h
      exact Option.noConfusion h
    · simp only [SymbolTable.freeSymbols, h1] at h
      obtain ⟨sv, ss, hdec, henc, hN, hM, hcase⟩ := freeSymbol_cases h1
      rw [ih h, hM]

theorem mono_eq_incRefSymbols {syms : List Nat} :
    ∀ {T T1 : SymbolTable}, T.incRefSymbols syms = some T1 →
      T1.monotonic_counter = T.monotonic_counter := by
  induction syms with
  | nil =>
    intro T T1 h
    simp only [SymbolTable.incRefSymbols] at h
    rw [Option.some.inj h]
  | cons s rest ih =>
    intro T T1 h
    rcases h1 : T.incRefSymbol s with _ | Ta
    · simp only [SymbolTable.incRefSymbols, h1] at h
      exact Option.noConfusion h
    · simp only [SymbolTable.incRefSymbols, h1] at h
      obtain ⟨sv, ss, hdec, henc, hE, hD, hP, hN, hM⟩ := incRefSymbol_cases h1
      rw [ih h, hM]

/-- Across any single successful table operation the monotonic counter never
decreases. -/
theorem mono_le_step {T T1 : SymbolTable} (hI : TableInv T) (h : Step T T1) :
    T.monotonic_counter ≤ T1.monotonic_counter := by
  cases h with
  | encode name syms T2 henc =>
    unfold SymbolTable.encode at henc
    by_cases hn : name = []
    · rw [if_pos hn] at henc
      obtain ⟨h1, h2⟩ := Prod.mk.injEq .. ▸ Option.some.inj henc
      rw [h2]
    · rw [if_neg hn] at henc
      exact mono_le_toSymbols hI henc
  | free syms T2 hfree => rw [mono_eq_freeSymbols hfree]
  | incRef syms T2 hinc => rw [mono_eq_incRefSymbols hinc]

/-! ## Effect of toSymbol / toSymbols on the maps -/

theorem toSymbols_nil_inj {T T1 : SymbolTable} {syms : List Nat}
    (h : T.toSymbols [] = some (syms, T1)) : syms = [] ∧ T1 = T := by
  simp only [SymbolTable.toSymbols] at h
  obtain ⟨h1, h2⟩ := Prod.mk.injEq .. ▸ Option.some.inj h
  exact ⟨h1.symm, h2.symm⟩

theorem toSymbols_cases_cons {T T1 : SymbolTable} {tok : Str} {rest : List Str}
    {syms : List Nat} (h : T.toSymbols (tok :: rest) = some (syms, T1)) :
    ∃ sym Ta syms2, T.toSymbol tok = some (sym, Ta) ∧
      Ta.toSymbols rest = some (syms2, T1) ∧ syms = sym :: syms2 := by
  rcases h1 : T.toSymbol tok with _ | ⟨sym, Ta⟩
  · simp only [SymbolTable.toSymbols, h1] at h
    exact Option.noConfusion h
  · rcases h2 : Ta.toSymbols rest with _ | ⟨syms2, T2⟩
    · simp only [SymbolTable.toSymbols, h1, h2] at h
      exact Option.noConfusion h
    · simp only [SymbolTable.toSymbols, h1, h2] at h
      obtain ⟨hs, hT⟩ := Prod.mk.injEq .. ▸ Option.some.inj h
      exact ⟨sym, Ta, syms2, rfl, hT ▸ h2, hs.symm⟩

theorem toSymbol_enc_hit_self {T T1 : SymbolTable} {sv : Str} {sym : Nat} {s0 : SharedSymbol}
    (h : T.toSymbol sv = some (sym, T1)) (hp : lookupKey sv T.encode_map = some s0) :
    sym = s0.symbol ∧ lookupKey sv T1.encode_map = some ⟨s0.symbol, s0.ref_count + 1⟩ := by
  rcases toSymbol_cases h with
    ⟨ss, henc, hsymEq, hE, hD, hP, hN, hM⟩ | ⟨henc, hdec, hsymEq, hE, hD, hrest⟩
  · rw [henc] at hp
    obtain rfl := Option.some.inj hp
    refine ⟨hsymEq, ?_⟩
    rw [hE, lookupKey_adjustRef_self, henc, Option.map_some']
  · rw [henc] at hp
    exact Option.noConfusion hp

theorem toSymbol_enc_other {T T1 : SymbolTable} {sv : Str} {sym : Nat}
    (h : T.toSymbol sv = some (sym, T1)) {tv : Str} (hne : tv ≠ sv) :
    lookupKey tv T1.encode_map = lookupKey tv T.encode_map := by
  rcases toSymbol_cases h with
    ⟨ss, henc, hsymEq, hE, hD, hP, hN, hM⟩ | ⟨henc, hdec, hsymEq, hE, hD, hrest⟩
  · rw [hE, lookupKey_adjustRef_ne _ _ hne]
  · rw [hE, lookupKey_cons_ne _ _ (fun he => hne he.symm)]

theorem toSymbol_enc_miss_self {T T1 : SymbolTable} {sv : Str} {sym : Nat}
    (h : T.toSymbol sv = some (sym, T1)) (hp : lookupKey sv T.encode_map = none) :
    lookupKey sv T1.encode_map = some ⟨sym, 1⟩ ∧ lookupKey sym T.decode_map = none := by
  rcases toSymbol_cases h with
    ⟨ss, henc, hsymEq, hE, hD, hP, hN, hM⟩ | ⟨henc, hdec, hsymEq, hE, hD, hrest⟩
  · rw [henc] at hp
    exact Option.noConfusion hp
  · refine ⟨?_, hsymEq ▸ hdec⟩
    rw [hE, hsymEq, lookupKey_cons_self]

theorem toSymbol_dec_preserve {T T1 : SymbolTable} {sv : Str} {sym : Nat}
    (h : T.toSymbol sv = some (sym, T1)) {s : Nat} {tv : Str}
    (hp : lookupKey s T.decode_map = some tv) :
    lookupKey s T1.decode_map = some tv := by
  rcases toSymbol_cases h with
    ⟨ss, henc, hsymEq, hE, hD, hP, hN, hM⟩ | ⟨henc, hdec, hsymEq, hE, hD, hrest⟩
  · rw [hD]
    exact hp
  · rw [hD, lookupKey_cons_ne _ _ (ne_of_lookup_some_none hp hdec).symm]
    exact hp

theorem toSymbol_dec_source {T T1 : SymbolTable} {sv : Str} {sym : Nat}
    (h : T.toSymbol sv = some (sym, T1)) {s : Nat} {tv : Str}
    (hp : lookupKey s T1.decode_map = some tv) :
    lookupKey s T.decode_map = some tv ∨
      (s = sym ∧ tv = sv ∧ lookupKey s T.decode_map = none ∧
        lookupKey sv T.encode_map = none) := by
  rcases toSymbol_cases h with
    ⟨ss, henc, hsymEq, hE, hD, hP, hN, hM⟩ | ⟨henc, hdec, hsymEq, hE, hD, hrest⟩
  · rw [hD] at hp
    exact Or.inl hp
  · rw [hD] at hp
    by_cases hc : T.next_symbol = s
    · subst hc
      rw [lookupKey_cons_self] at hp
      exact Or.inr ⟨hsymEq.symm, (Option.some.inj hp).symm, hdec, henc⟩
    · rw [lookupKey_cons_ne _ _ hc] at hp
      exact Or.inl hp

theorem toSymbol_self_after {T T1 : SymbolTable} {sv : Str} {sym : Nat} (hI : TableInv T)
    (h : T.toSymbol sv = some (sym, T1)) :
    ∃ rc, lookupKey sv T1.encode_map = some ⟨sym, rc⟩ ∧
      lookupKey sym T1.decode_map = some sv := by
  rcases hp : lookupKey sv T.encode_map with _ | s0
  · obtain ⟨he, _⟩ := toSymbol_enc_miss_self h hp
    exact ⟨1, he, (tableInv_toSymbol hI h).encToDec sv ⟨sym, 1⟩ he⟩
  · obtain ⟨hs, he⟩ := toSymbol_enc_hit_self h hp
    refine ⟨s0.ref_count + 1, hs ▸ he, ?_⟩
    have := (tableInv_toSymbol hI h).encToDec sv ⟨s0.symbol, s0.ref_count + 1⟩ he
    exact hs ▸ this

/-- E1: a token already interned keeps its symbol, and its ref count grows by
exactly the number of occurrences of the token in the encoded list. -/
theorem toSymbols_enc_present {toks : List Str} :
    ∀ {T T1 : SymbolTable} {syms : List Nat} {tv : Str} {s0 : SharedSymbol},
      T.toSymbols toks = some (syms, T1) →
      lookupKey tv T.encode_map = some s0 →
      lookupKey tv T1.encode_map = some ⟨s0.symbol, s0.ref_count + toks.count tv⟩ := by
  induction toks with
  | nil =>
    intro T T1 syms tv s0 h hp
    obtain ⟨hs, hT⟩ := toSymbols_nil_inj h
    rw [hT, List.count_nil]
    exact hp
  | cons tok rest ih =>
    intro T T1 syms tv s0 h hp
    obtain ⟨sym, Ta, syms2, h1, h2, hs⟩ := toSymbols_cases_cons h
    by_cases hc : tok = tv
    · subst hc
      obtain ⟨_, he⟩ := toSymbol_enc_hit_self h1 hp
      rw [ih h2 he]
      simp only [Option.some.injEq, SharedSymbol.mk.injEq, List.count_cons_self]
      exact ⟨trivial, by omega⟩
    · have he : lookupKey tv Ta.encode_map = some s0 := by
        rw [toSymbol_enc_other h1 (fun hx => hc hx.symm)]
        exact hp
      have := ih h2 he
      rw [this, List.count_cons_of_ne (fun hx => hc hx.symm)]

/-- E3: a token not occurring in the encoded list keeps its encode-map entry
unchanged. -/
theorem toSymbols_enc_other {toks : List Str} :
    ∀ {T T1 : SymbolTable} {syms : List Nat} {tv : Str},
      T.toSymbols toks = some (syms, T1) → tv ∉ toks →
      lookupKey tv T1.encode_map = lookupKey tv T.encode_map := by
  induction toks with
  | nil =>
    intro T T1 syms tv h hm
    obtain ⟨hs, hT⟩ := toSymbols_nil_inj h
    rw [hT]
  | cons tok rest ih =>
    intro T T1 syms tv h hm
    obtain ⟨sym, Ta, syms2, h1, h2, hs⟩ := toSymbols_cases_cons h
    have hne : tv ≠ tok := fun he => hm (he ▸ List.mem_cons_self tok rest)
    rw [ih h2 (fun hx => hm (List.mem_cons_of_mem _ hx)), toSymbol_enc_other h1 hne]

/-- E2: a token first interned by this encode call ends with ref count equal
to its occurrence count, under a symbol that was not live before. -/
theorem toSymbols_enc_miss {toks : List Str} :
    ∀ {T T1 : SymbolTable} {syms : List Nat} {tv : Str},
      T.toSymbols toks = some (syms, T1) → tv ∈ toks →
      lookupKey tv T.encode_map = none →
      ∃ sym, lookupKey tv T1.encode_map = some ⟨sym, toks.count tv⟩ ∧
        lookupKey sym T.decode_map = none := by
  induction toks with
  | nil =>
    intro T T1 syms tv h hm
    simp at hm
  | cons tok rest ih =>
    intro T T1 syms tv h hm hp
    obtain ⟨sym, Ta, syms2, h1, h2, hs⟩ := toSymbols_cases_cons h
    by_cases hc : tok = tv
    · subst hc
      obtain ⟨he, hd⟩ := toSymbol_enc_miss_self h1 hp
      refine ⟨sym, ?_, hd⟩
      rw [toSymbols_enc_present h2 he]
      simp only [Option.some.injEq, SharedSymbol.mk.injEq, List.count_cons_self]
      exact ⟨trivial, by omega⟩
    · have hmem : tv ∈ rest := by
        rcases List.mem_cons.mp hm with he | hm2
        · exact absurd he.symm hc
        · exact hm2
      have hpa : lookupKey tv Ta.encode_map = none := by
        rw [toSymbol_enc_other h1 (fun hx => hc hx.symm)]
        exact hp
      obtain ⟨sym2, he2, hd2⟩ := ih h2 hmem hpa
      refine ⟨sym2, ?_, ?_⟩
      · rw [he2, List.count_cons_of_ne (fun hx => hc hx.symm)]
      · rcases hq : lookupKey sym2 T.decode_map with _ | tv2
        · rfl
        · rw [toSymbol_dec_preserve h1 hq] at hd2
          exact Option.noConfusion hd2

/-- E4: decode-map entries are never removed or changed by an encode. -/
theorem toSymbols_dec_preserve {toks : List Str} :
    ∀ {T T1 : SymbolTable} {syms : List Nat} {s : Nat} {tv : Str},
      T.toSymbols toks = some (syms, T1) →
      lookupKey s T.decode_map = some tv →
      lookupKey s T1.decode_map = some tv := by
  induction toks with
  | nil =>
    intro T T1 syms s tv h hp
    obtain ⟨hs, hT⟩ := toSymbols_nil_inj h
    rw [hT]
    exact hp
  | cons tok rest ih =>
    intro T T1 syms s tv h hp
    obtain ⟨sym, Ta, syms2, h1, h2, hs⟩ := toSymbols_cases_cons h
    exact ih h2 (toSymbol_dec_preserve h1 hp)

/-- E5: any decode-map entry new after an encode belongs to a token freshly
interned by that encode, whose final ref count is its occurrence count. -/
theorem toSymbols_dec_source {toks : List Str} :
    ∀ {T T1 : SymbolTable} {syms : List Nat} {s : Nat} {tv : Str},
      T.toSymbols toks = some (syms, T1) →
      lookupKey s T1.decode_map = some tv →
      lookupKey s T.decode_map = some tv ∨
        (lookupKey s T.decode_map = none ∧ lookupKey tv T.encode_map = none ∧
          tv ∈ toks ∧ lookupKey tv T1.encode_map = some ⟨s, toks.count tv⟩) := by
  induction toks with
  | nil =>
    intro T T1 syms s tv h hp
    obtain ⟨hs, hT⟩ := toSymbols_nil_inj h
    rw [hT] at hp
    exact Or.inl hp
  | cons tok rest ih =>
    intro T T1 syms s tv h hp
    obtain ⟨sym, Ta, syms2, h1, h2, hs⟩ := toSymbols_cases_cons h
    rcases ih h2 hp with hTa | ⟨hdn, hen, hmem, hfin⟩
    · rcases toSymbol_dec_source h1 hTa with hT' | ⟨hsEq, htvEq, hdn, hen⟩
      · exact Or.inl hT'
      · subst hsEq
        subst htvEq
        obtain ⟨he, _⟩ := toSymbol_enc_miss_self h1 hen
        have := toSymbols_enc_present h2 he
        refine Or.inr ⟨hdn, hen, List.mem_cons_self _ _, ?_⟩
        rw [this]
        simp only [Option.some.injEq, SharedSymbol.mk.injEq, List.count_cons_self]
        exact ⟨trivial, by omega⟩
    · -- the entry was created while interning the tail
      have hTn : lookupKey s T.decode_map = none := by
        rcases hq : lookupKey s T.decode_map with _ | tv2
        · rfl
        · rw [toSymbol_dec_preserve h1 hq] at hdn
          exact Option.noConfusion hdn
      have hEn : lookupKey tv T.encode_map = none := by
        rcases hq : lookupKey tv T.encode_map with _ | s0
        · rfl
        · by_cases hc : tv = tok
          · subst hc
            obtain ⟨_, he⟩ := toSymbol_enc_hit_self h1 hq
            rw [he] at hen
            exact Option.noConfusion hen
          · rw [toSymbol_enc_other h1 hc] at hen
            rw [hq] at hen
            exact Option.noConfusion hen
      have hneq : tok ≠ tv := by
        intro he
        subst he
        rcases hq : lookupKey tok T.encode_map with _ | s0
        · obtain ⟨he2, _⟩ := toSymbol_enc_miss_self h1 hq
          rw [he2] at hen
          exact Option.noConfusion hen
        · obtain ⟨_, he2⟩ := toSymbol_enc_hit_self h1 hq
          rw [he2] at hen
          exact Option.noConfusion hen
      refine Or.inr ⟨hTn, hEn, List.mem_cons_of_mem _ hmem, ?_⟩
      rw [hfin, List.count_cons_of_ne (fun hx => hneq hx.symm)]

/-- E6: each token of the encoded list is paired, in order, with a symbol that
maps back to it in the final encode map. -/
theorem toSymbols_pairing {toks : List Str} :
    ∀ {T T1 : SymbolTable} {syms : List Nat}, TableInv T →
      T.toSymbols toks = some (syms, T1) →
      List.Forall₂ (fun tok sym => ∃ rc, lookupKey tok T1.encode_map = some ⟨sym, rc⟩)
        toks syms := by
  induction toks with
  | nil =>
    intro T T1 syms hI h
    obtain ⟨hs, hT⟩ := toSymbols_nil_inj h
    rw [hs]
    exact List.Forall₂.nil
  | cons tok rest ih =>
    intro T T1 syms hI h
    obtain ⟨sym, Ta, syms2, h1, h2, hs⟩ := toSymbols_cases_cons h
    subst hs
    refine List.Forall₂.cons ?_ (ih (tableInv_toSymbol hI h1) h2)
    obtain ⟨rc, he, hd⟩ := toSymbol_self_after hI h1
    exact ⟨rc + (rest.count tok), toSymbols_enc_present h2 he⟩

theorem joinDots_nameTokens (name : Str) : joinDots (nameTokens name) = name := by
  unfold nameTokens
  by_cases hn : name = []
  · rw [if_pos hn, hn]
    rfl
  · rw [if_neg hn]
    exact joinDots_splitOnDot name

theorem nameTokens_inj {s1 s2 : Str} (h : nameTokens s1 = nameTokens s2) : s1 = s2 := by
  have := congrArg joinDots h
  rwa [joinDots_nameTokens, joinDots_nameTokens] at this

theorem encode_eq_toSymbols (T : SymbolTable) (name : Str) :
    T.encode name = T.toSymbols (nameTokens name) := by
  unfold SymbolTable.encode nameTokens
  by_cases hn : name = []
  · rw [if_pos hn, if_pos hn]
    rfl
  · rw [if_neg hn, if_neg hn]

theorem forall2_mem_right {α β : Type} {R : α → β → Prop} {as : List α} {bs : List β}
    (h : List.Forall₂ R as bs) {b : β} (hb : b ∈ bs) : ∃ a, a ∈ as ∧ R a b := by
  induction h with
  | nil => simp at hb
  | cons hr hrest ih =>
    rcases List.mem_cons.mp hb with he | hm
    · exact ⟨_, List.mem_cons_self _ _, he ▸ hr⟩
    · obtain ⟨a, ha, hra⟩ := ih hm
      exact ⟨a, List.mem_cons_of_mem _ ha, hra⟩

theorem resolveAll_of_pairing {T : SymbolTable} {toks : List Str} {syms : List Nat}
    (h : List.Forall₂ (fun tok sym => lookupKey sym T.decode_map = some tok) toks syms) :
    resolveAll T syms = some toks := by
  induction h with
  | nil => rfl
  | cons hr hrest ih => simp only [resolveAll, SymbolTable.fromSymbol, hr, ih]

theorem pairing_dec {T1 : SymbolTable} (hI1 : TableInv T1) {toks : List Str} {syms : List Nat}
    (h : List.Forall₂ (fun tok sym => ∃ rc, lookupKey tok T1.encode_map = some ⟨sym, rc⟩)
      toks syms) :
    List.Forall₂ (fun tok sym => lookupKey sym T1.decode_map = some tok) toks syms :=
  h.imp (fun {a b} hab => by
    obtain ⟨rc, he⟩ := hab
    exact hI1.encToDec a ⟨b, rc⟩ he)

theorem syms_bound_of_pairing {T1 : SymbolTable} (hI1 : TableInv T1) {toks : List Str}
    {syms : List Nat}
    (h : List.Forall₂ (fun tok sym => lookupKey sym T1.decode_map = some tok) toks syms) :
    ∀ s ∈ syms, s < 2 ^ 32 := by
  intro s hs
  obtain ⟨tok, _, hr⟩ := forall2_mem_right h hs
  exact lt_of_le_of_lt (hI1.decBound s tok hr) hI1.monoLt

/-- Everything the decode side needs to know about a successful encode. -/
theorem encode_resolves {T T1 : SymbolTable} {name : Str} {syms : List Nat}
    (hI : TableInv T) (h : T.encode name = some (syms, T1)) :
    resolveAll T1 syms = some (nameTokens name) ∧ (∀ s ∈ syms, s < 2 ^ 32) := by
  rw [encode_eq_toSymbols] at h
  have hpair := toSymbols_pairing hI h
  have hdecp := pairing_dec (tableInv_toSymbols hI h) hpair
  exact ⟨resolveAll_of_pairing hdecp, syms_bound_of_pairing (tableInv_toSymbols hI h) hdecp⟩

/-- C1: Round-trip through the table: for every input string (including the
empty string) whose encode succeeds against a reachable table, decoding the
packed payload produced by SymbolTable::encode against the same table
returns exactly the input string. -/
theorem c1_decode_encode_roundtrip {T T1 : SymbolTable} {name : Str} {syms : List Nat}
    (hR : Reachable T) (henc : T.encode name = some (syms, T1)) :
    T1.decode (encodeSyms syms) = some name := by
  have hI := tableInv_reachable hR
  obtain ⟨hres, hb⟩ := encode_resolves hI henc
  unfold SymbolTable.decode SymbolTable.decodeSymbolVec
  rw [decodeSymbols_encodeSyms syms hb, hres, Option.map_some', joinDots_nameTokens]

theorem wTab_reachable : Reachable wTab :=
  Relation.ReflTransGen.single
    (Step.encode initTable ['a', '.', 'b'] [0, 1] wTab (by decide))

/-! ## Claim theorems -/

/-- C2: Packed-name byte layout: for every sequence of token ids whose payload
fits the 16-bit length prefix, moveToStorage emits byte 0 = length mod 256 and
byte 1 = length / 256 (length >> 8) followed by the payload; each id is
emitted base-128 little-endian with high-bit continuation (id 0 is the single
byte 0); and StatName::dataSize recovers the payload length from the two
prefix bytes. -/
theorem c2_packed_layout (ids : List Nat) (hlen : (encodeSyms ids).length < 65536) :
    moveToStorage (encodeSyms ids) =
      some ((encodeSyms ids).length % 256 :: (encodeSyms ids).length / 256 :: encodeSyms ids) ∧
    dataSize ((encodeSyms ids).length % 256 :: (encodeSyms ids).length / 256 :: encodeSyms ids)
      = (encodeSyms ids).length ∧
    addSymbol 0 = [0] ∧
    (∀ s, 0 < s → addSymbol s = withContinuation (Nat.digits 128 s)) := by
  refine ⟨?_, ?_, addSymbol_zero, fun s hs => addSymbol_eq_withContinuation_digits s hs⟩
  · unfold moveToStorage
    rw [if_pos hlen]
    have hq : (encodeSyms ids).length / 256 % 256 = (encodeSyms ids).length / 256 := by
      apply Nat.mod_eq_of_lt
      omega
    rw [hq]
  · show (encodeSyms ids).length % 256 + 256 * ((encodeSyms ids).length / 256) =
      (encodeSyms ids).length
    exact Nat.mod_add_div _ _

theorem c2_packed_layout_witness :
    moveToStorage (encodeSyms [0, 1, 200]) = some [4, 0, 0, 1, 200, 1] := by
  have e200 : addSymbol 200 = [200, 1] := by
    rw [addSymbol_of_ge 200 (by norm_num),
      show (200 : Nat) / 128 = 1 from by norm_num, addSymbol_of_lt 1 (by norm_num)]
  have hcomp : encodeSyms [0, 1, 200] = [0, 1, 200, 1] := by
    simp [encodeSyms, addSymbol_zero, addSymbol_of_lt 1 (by norm_num), e200]
  have h := (c2_packed_layout [0, 1, 200] (by rw [hcomp]; norm_num)).1
  rw [hcomp] at h
  rw [hcomp, h]
  rfl

/-- C3 counterexample: token id 0 is not reserved.  A fresh table assigns id 0
to the first interned token: after encoding the name a into a fresh table, id
0 is present in the decode map (mapped to a), and toSymbol on a fresh table
returns id 0, not 1. -/
theorem c3_counterexample :
    Reachable (⟨1, 1, [(['a'], ⟨0, 1⟩)], [(0, ['a'])], []⟩ : SymbolTable) ∧
    lookupKey 0 (⟨1, 1, [(['a'], ⟨0, 1⟩)], [(0, ['a'])], []⟩ : SymbolTable).decode_map
      = some ['a'] ∧
    (initTable.toSymbol ['a']).map Prod.fst = some 0 := by
  refine ⟨?_, by decide, by decide⟩
  exact Relation.ReflTransGen.single
    (Step.encode initTable ['a'] [0]
      (⟨1, 1, [(['a'], ⟨0, 1⟩)], [(0, ['a'])], []⟩ : SymbolTable) (by decide))

/-- C3 amended: next_symbol_ starts at 0, so the first token interned into a
fresh table receives id 0 (id 0 is not reserved); in every reachable state
every id present in the decode map is bounded by the monotonic counter and in
particular below 2 ^ 32. -/
theorem c3_amended_first_id_zero :
    (∀ tok : Str, (initTable.toSymbol tok).map Prod.fst = some 0) ∧
    (∀ T, Reachable T → ∀ s tv, lookupKey s T.decode_map = some tv →
      s ≤ T.monotonic_counter ∧ s < 2 ^ 32) := by
  constructor
  · intro tok
    have henc : lookupKey tok initTable.encode_map = none := rfl
    have hdec : lookupKey initTable.next_symbol initTable.decode_map = none := rfl
    rw [toSymbol_eq_miss henc hdec]
    rfl
  · intro T hR s tv hl
    have hI := tableInv_reachable hR
    exact ⟨hI.decBound s tv hl, lt_of_le_of_lt (hI.decBound s tv hl) hI.monoLt⟩

theorem c3_amended_witness :
    (initTable.toSymbol ['x']).map Prod.fst = some 0 ∧
    (0 : Nat) ≤ wTab.monotonic_counter ∧ (0 : Nat) < 2 ^ 32 := by
  refine ⟨c3_amended_first_id_zero.1 ['x'], ?_⟩
  have h := c3_amended_first_id_zero.2 wTab wTab_reachable 0 ['a'] (by decide)
  exact h

/-- C4 counterexample: SymbolEncoding::decodeSymbols performs no
malformed-input check.  On the single byte 0x80 (continuation bit set) it
silently returns the empty symbol sequence, the same normal result as for the
well-formed empty input; a payload of a complete token followed by a
dangling continuation byte decodes to the same ids as without it. -/
theorem c4_counterexample :
    decodeSymbols [128] = [] ∧ decodeSymbols [] = [] ∧
    decodeSymbols [5, 129] = decodeSymbols [5] := by
  exact ⟨rfl, rfl, rfl⟩

/-- C4 amended: decodeSymbols never fails: appending any run of bytes with
the continuation (high) bit set to a byte stream leaves the decoded id
sequence unchanged (a trailing incomplete token is silently discarded), and
on a well-formed stream it returns exactly the encoded token ids. -/
theorem c4_amended_silent_drop :
    (∀ P S : List Nat, (∀ b ∈ S, 128 ≤ b) →
      decodeSymbols (P ++ S) = decodeSymbols P) ∧
    (∀ syms : List Nat, (∀ s ∈ syms, s < 2 ^ 32) →
      decodeSymbols (encodeSyms syms) = syms) :=
  ⟨fun P S hS => decodeSymbolsAux_append_cont P S hS 0 0, decodeSymbols_encodeSyms⟩

theorem c4_amended_witness :
    decodeSymbols (encodeSyms [1, 300] ++ [133]) = [1, 300] := by
  have h1 := c4_amended_silent_drop.1 (encodeSyms [1, 300]) [133] (by decide)
  have h2 := c4_amended_silent_drop.2 [1, 300] (by decide)
  rw [h1, h2]

/-- C5 counterexample: next_symbol_ is not the top of the free-list.  After
encoding a into a fresh table and freeing it, the pool is [0] but
next_symbol_ is still 1; and in the fresh table itself (pool empty)
next_symbol_ is 0, not monotonic_counter + 1 = 1. -/
theorem c5_counterexample :
    Reachable (⟨1, 1, [], [], [0]⟩ : SymbolTable) ∧
    (⟨1, 1, [], [], [0]⟩ : SymbolTable).pool.head? = some 0 ∧
    (⟨1, 1, [], [], [0]⟩ : SymbolTable).next_symbol = 1 ∧
    initTable.pool = [] ∧ initTable.next_symbol ≠ initTable.monotonic_counter + 1 := by
  refine ⟨?_, rfl, rfl, rfl, by decide⟩
  have h1 : Step initTable (⟨1, 1, [(['a'], ⟨0, 1⟩)], [(0, ['a'])], []⟩ : SymbolTable) :=
    Step.encode _ ['a'] [0] _ (by decide)
  have h2 : Step (⟨1, 1, [(['a'], ⟨0, 1⟩)], [(0, ['a'])], []⟩ : SymbolTable)
      (⟨1, 1, [], [], [0]⟩ : SymbolTable) :=
    Step.free _ [0] _ (by decide)
  exact Relation.ReflTransGen.head h1 (Relation.ReflTransGen.single h2)

/-- C5 amended: next_symbol_ is staged ahead of the next insertion: in every
reachable state it is not a live id; newSymbol (called only at insertion)
re-stages it as the popped top of the free-list when the free-list is
non-empty and otherwise as the incremented monotonic counter (so next equals
the new counter value, not counter + 1); a free alone does not update it.
Across every operation the monotonic counter never decreases, and an
increment that wraps to zero is the fatal (asserted) condition. -/
theorem c5_amended_next_id :
    (∀ T, Reachable T → lookupKey T.next_symbol T.decode_map = none) ∧
    (∀ T : SymbolTable, T.pool = [] → (T.monotonic_counter + 1) % 2 ^ 32 ≠ 0 →
      T.newSymbol = some { T with next_symbol := (T.monotonic_counter + 1) % 2 ^ 32,
                                  monotonic_counter := (T.monotonic_counter + 1) % 2 ^ 32 }) ∧
    (∀ (T : SymbolTable) (s : Nat) (rest : List Nat),
      T.pool = s :: rest → T.monotonic_counter ≠ 0 →
      T.newSymbol = some { T with next_symbol := s, pool := rest }) ∧
    (∀ T T1, Reachable T → Step T T1 → T.monotonic_counter ≤ T1.monotonic_counter) ∧
    (∀ T : SymbolTable, T.pool = [] → (T.monotonic_counter + 1) % 2 ^ 32 = 0 →
      T.newSymbol = none) := by
  refine ⟨?_, ?_, ?_, ?_, ?_⟩
  · intro T hR
    exact (tableInv_reachable hR).nextFresh
  · intro T hp hz
    unfold SymbolTable.newSymbol
    rw [if_pos hp, if_neg hz]
  · intro T s rest hp hz
    unfold SymbolTable.newSymbol
    rw [if_neg (by rw [hp]; simp), if_neg hz, hp]
    rfl
  · intro T T1 hR hstep
    exact mono_le_step (tableInv_reachable hR) hstep
  · intro T hp hz
    unfold SymbolTable.newSymbol
    rw [if_pos hp, if_pos hz]

theorem c5_amended_witness :
    lookupKey (2 : Nat) wTab.decode_map = none ∧
    initTable.newSymbol = some (⟨1, 1, [], [], []⟩ : SymbolTable) ∧
    SymbolTable.newSymbol (⟨1, 1, [], [], [0]⟩ : SymbolTable)
      = some (⟨0, 1, [], [], []⟩ : SymbolTable) ∧
    SymbolTable.newSymbol (⟨0, 2 ^ 32 - 1, [], [], []⟩ : SymbolTable) = none := by
  refine ⟨c5_amended_next_id.1 wTab wTab_reachable, ?_, ?_, ?_⟩
  · exact c5_amended_next_id.2.1 initTable rfl (by decide)
  · exact c5_amended_next_id.2.2.1 (⟨1, 1, [], [], [0]⟩ : SymbolTable) 0 [] rfl (by decide)
  · exact c5_amended_next_id.2.2.2.2 (⟨0, 2 ^ 32 - 1, [], [], []⟩ : SymbolTable) rfl (by norm_num)

/-- C6: Bimap invariant: in every table state reachable from a fresh table by
encode, free and incRefCount operations, the encode and decode maps have
identical size and are mutual inverses. -/
theorem c6_bimap_invariant {T : SymbolTable} (hR : Reachable T) :
    T.encode_map.length = T.decode_map.length ∧
    (∀ sv sym rc, lookupKey sv T.encode_map = some ⟨sym, rc⟩ →
      lookupKey sym T.decode_map = some sv) ∧
    (∀ sym sv, lookupKey sym T.decode_map = some sv →
      ∃ rc, lookupKey sv T.encode_map = some ⟨sym, rc⟩) := by
  have hI := tableInv_reachable hR
  exact ⟨hI.lenEq, fun sv sym rc h => hI.encToDec sv ⟨sym, rc⟩ h, hI.decToEnc⟩

theorem c6_bimap_invariant_witness :
    wTab.encode_map.length = wTab.decode_map.length :=
  (c6_bimap_invariant wTab_reachable).1

theorem c1_decode_encode_roundtrip_witness :
    wTab.decode (encodeSyms [0, 1]) = some ['a', '.', 'b'] :=
  c1_decode_encode_roundtrip Relation.ReflTransGen.refl (by decide)

theorem encAfterFree_none {S : SymbolTable} {syms : List Nat} {tv : Str}
    (h : lookupKey tv S.encode_map = none) : encAfterFree S syms tv = none := by
  unfold encAfterFree
  rw [h]

theorem encAfterFree_some {S : SymbolTable} {syms : List Nat} {tv : Str} {ss : SharedSymbol}
    (h : lookupKey tv S.encode_map = some ss) :
    encAfterFree S syms tv =
      if ss.ref_count ≤ syms.count ss.symbol then none
      else some ⟨ss.symbol, ss.ref_count - syms.count ss.symbol⟩ := by
  unfold encAfterFree
  rw [h]

theorem decAfterFree_none {S : SymbolTable} {syms : List Nat} {s : Nat}
    (h : lookupKey s S.decode_map = none) : decAfterFree S syms s = none := by
  unfold decAfterFree
  rw [h]

theorem decAfterFree_some {S : SymbolTable} {syms : List Nat} {s : Nat} {tv : Str}
    {ss : SharedSymbol} (hd : lookupKey s S.decode_map = some tv)
    (he : lookupKey tv S.encode_map = some ss) :
    decAfterFree S syms s =
      if ss.ref_count ≤ syms.count ss.symbol then none else some tv := by
  simp only [decAfterFree, hd, he]

/-- F: full characterization of a SymbolTable::free run over a symbol vector
whose per-symbol occurrence counts are covered by the current ref counts:
the run succeeds, and both maps end as described by encAfterFree and
decAfterFree. -/
theorem freeSymbols_chars {syms : List Nat} :
    ∀ {S : SymbolTable}, TableInv S →
    (∀ s2 ∈ syms, ∃ tv rc, lookupKey s2 S.decode_map = some tv ∧
      lookupKey tv S.encode_map = some ⟨s2, rc⟩ ∧ syms.count s2 ≤ rc) →
    ∃ T2, S.freeSymbols syms = some T2 ∧
      (∀ tv, lookupKey tv T2.encode_map = encAfterFree S syms tv) ∧
      (∀ s2, lookupKey s2 T2.decode_map = decAfterFree S syms s2) := by
  induction syms with
  | nil =>
    intro S hI H
    refine ⟨S, rfl, ?_, ?_⟩
    · intro tv
      rcases he : lookupKey tv S.encode_map with _ | ss
      · rw [encAfterFree_none he]
      · rw [encAfterFree_some he, List.count_nil]
        rw [if_neg (by have := hI.refPos tv ss he; omega)]
        simp
    · intro s2
      rcases hd : lookupKey s2 S.decode_map with _ | tv
      · rw [decAfterFree_none hd]
      · obtain ⟨rc, he⟩ := hI.decToEnc s2 tv hd
        rw [decAfterFree_some hd he, List.count_nil]
        show some tv = if rc ≤ 0 then none else some tv
        rw [if_neg (by have h9 : 1 ≤ rc := hI.refPos tv ⟨s2, rc⟩ he; omega)]
  | cons s rest ih =>
    intro S hI H
    obtain ⟨tv, rc, hdec, henc, hcnt⟩ := H s (List.mem_cons_self s rest)
    have hrcpos : 1 ≤ rc := by
      have h1 : 1 ≤ (s :: rest).count s := by
        rw [List.count_cons_self]
        omega
      omega
    have hsyminj : ∀ tv2 rc2, lookupKey tv2 S.encode_map = some ⟨s, rc2⟩ → tv2 = tv := by
      intro tv2 rc2 he2
      have h1 := hI.encToDec tv2 ⟨s, rc2⟩ he2
      rw [hdec] at h1
      exact (Option.some.inj h1).symm
    by_cases hrc1 : rc - 1 = 0
    · -- last reference: both entries are erased and s joins the pool
      have hrceq : rc = 1 := by omega
      have hcnt0 : rest.count s = 0 := by
        rw [List.count_cons_self] at hcnt
        omega
      have hsnotin : s ∉ rest := List.count_eq_zero.mp hcnt0
      obtain ⟨S1, hfree1, hS1E, hS1D⟩ : ∃ S1, S.freeSymbol s = some S1 ∧
          S1.encode_map = eraseKey tv S.encode_map ∧
          S1.decode_map = eraseKey s S.decode_map :=
        ⟨_, by rw [freeSymbol_eq_found hdec henc, if_pos hrc1], rfl, rfl⟩
      have hI1 : TableInv S1 := tableInv_freeSymbol hI hfree1
      have H1 : ∀ s2 ∈ rest, ∃ tv2 rc2, lookupKey s2 S1.decode_map = some tv2 ∧
          lookupKey tv2 S1.encode_map = some ⟨s2, rc2⟩ ∧ rest.count s2 ≤ rc2 := by
        intro s2 hs2
        obtain ⟨tv2, rc2, hd2, he2, hc2⟩ := H s2 (List.mem_cons_of_mem _ hs2)
        have hs2ne : s2 ≠ s := fun he => hsnotin (he ▸ hs2)
        have htv2ne : tv2 ≠ tv := by
          intro he
          exact hs2ne (by
            rw [he, henc] at he2
            exact (congrArg SharedSymbol.symbol (Option.some.inj he2)).symm)
        refine ⟨tv2, rc2, ?_, ?_, ?_⟩
        · rw [hS1D, lookupKey_eraseKey_ne hs2ne]
          exact hd2
        · rw [hS1E, lookupKey_eraseKey_ne htv2ne]
          exact he2
        · rw [List.count_cons_of_ne hs2ne] at hc2
          exact hc2
      obtain ⟨T2, hfr, hEnc, hDec⟩ := ih hI1 H1
      refine ⟨T2, ?_, ?_, ?_⟩
      · simp only [SymbolTable.freeSymbols, hfree1]
        exact hfr
      · intro tv2
        rw [hEnc tv2]
        by_cases hc : tv2 = tv
        · subst hc
          have h1 : lookupKey tv2 S1.encode_map = none := by
            rw [hS1E]
            exact lookupKey_eraseKey_self hI.encNodup
          rw [encAfterFree_none h1, encAfterFree_some henc]
          rw [if_pos (by simp only []; rw [List.count_cons_self]; omega)]
        · have h1 : lookupKey tv2 S1.encode_map = lookupKey tv2 S.encode_map := by
            rw [hS1E, lookupKey_eraseKey_ne hc]
          rcases he2 : lookupKey tv2 S.encode_map with _ | ss2
          · rw [encAfterFree_none (h1.trans he2), encAfterFree_none he2]
          · have hsym2 : ss2.symbol ≠ s := by
              intro he
              cases ss2 with
              | mk sy rc2 =>
                have hsy : sy = s := he
                rw [hsy] at he2
                exact hc (hsyminj tv2 rc2 he2)
            rw [encAfterFree_some (h1.trans he2), encAfterFree_some he2,
              List.count_cons_of_ne hsym2]
      · intro s2
        rw [hDec s2]
        by_cases hc : s2 = s
        · subst hc
          have h1 : lookupKey s2 S1.decode_map = none := by
            rw [hS1D]
            exact lookupKey_eraseKey_self hI.decNodup
          rw [decAfterFree_none h1, decAfterFree_some hdec henc]
          rw [if_pos (by simp only []; rw [List.count_cons_self]; omega)]
        · have h1 : lookupKey s2 S1.decode_map = lookupKey s2 S.decode_map := by
            rw [hS1D, lookupKey_eraseKey_ne hc]
          rcases hd2 : lookupKey s2 S.decode_map with _ | tv2
          · rw [decAfterFree_none (h1.trans hd2), decAfterFree_none hd2]
          · obtain ⟨rc2, he2⟩ := hI.decToEnc s2 tv2 hd2
            have htv2ne : tv2 ≠ tv := by
              intro he
              rw [he, henc] at he2
              have hs2s : s = s2 := congrArg SharedSymbol.symbol (Option.some.inj he2)
              exact hc hs2s.symm
            have he2' : lookupKey tv2 S1.encode_map = some ⟨s2, rc2⟩ := by
              rw [hS1E, lookupKey_eraseKey_ne htv2ne]
              exact he2
            rw [decAfterFree_some (h1.trans hd2) he2', decAfterFree_some hd2 he2]
            simp only []
            rw [List.count_cons_of_ne hc]
    · -- remaining references: only the ref count is decremented
      obtain ⟨S1, hfree1, hS1E, hS1D⟩ : ∃ S1, S.freeSymbol s = some S1 ∧
          S1.encode_map = adjustRef (fun x => x - 1) tv S.encode_map ∧
          S1.decode_map = S.decode_map :=
        ⟨{ S with encode_map := adjustRef (fun x => x - 1) tv S.encode_map },
          by rw [freeSymbol_eq_found hdec henc, if_neg hrc1], rfl, rfl⟩
      have hI1 : TableInv S1 := tableInv_freeSymbol hI hfree1
      have hencS1 : lookupKey tv S1.encode_map = some ⟨s, rc - 1⟩ := by
        rw [hS1E, lookupKey_adjustRef_self, henc, Option.map_some']
      have hcnt2 : rest.count s + 1 ≤ rc := by
        rw [List.count_cons_self] at hcnt
        omega
      have H1 : ∀ s2 ∈ rest, ∃ tv2 rc2, lookupKey s2 S1.decode_map = some tv2 ∧
          lookupKey tv2 S1.encode_map = some ⟨s2, rc2⟩ ∧ rest.count s2 ≤ rc2 := by
        intro s2 hs2
        obtain ⟨tv2, rc2, hd2, he2, hc2⟩ := H s2 (List.mem_cons_of_mem _ hs2)
        by_cases hs2e : s2 = s
        · subst hs2e
          have htv2 : tv2 = tv := hsyminj tv2 rc2 he2
          rw [htv2] at he2 hd2
          rw [henc] at he2
          have hrceq2 : rc = rc2 :=
            congrArg SharedSymbol.ref_count (Option.some.inj he2)
          refine ⟨tv, rc - 1, ?_, hencS1, ?_⟩
          · rw [hS1D]
            exact hd2
          · omega
        · have htv2ne : tv2 ≠ tv := by
            intro he
            refine hs2e ?_
            rw [he, henc] at he2
            exact (congrArg SharedSymbol.symbol (Option.some.inj he2)).symm
          refine ⟨tv2, rc2, ?_, ?_, ?_⟩
          · rw [hS1D]
            exact hd2
          · rw [hS1E, lookupKey_adjustRef_ne _ _ htv2ne]
            exact he2
          · rw [List.count_cons_of_ne hs2e] at hc2
            exact hc2
      obtain ⟨T2, hfr, hEnc, hDec⟩ := ih hI1 H1
      refine ⟨T2, ?_, ?_, ?_⟩
      · simp only [SymbolTable.freeSymbols, hfree1]
        exact hfr
      · intro tv2
        rw [hEnc tv2]
        by_cases hc : tv2 = tv
        · subst hc
          rw [encAfterFree_some hencS1, encAfterFree_some henc]
          show (if rc - 1 ≤ rest.count s then (none : Option SharedSymbol)
              else some (⟨s, rc - 1 - rest.count s⟩ : SharedSymbol)) =
            (if rc ≤ (s :: rest).count s then (none : Option SharedSymbol)
              else some (⟨s, rc - (s :: rest).count s⟩ : SharedSymbol))
          rw [List.count_cons_self]
          by_cases hle : rc - 1 ≤ rest.count s
          · rw [if_pos hle, if_pos (by omega)]
          · rw [if_neg hle, if_neg (by omega)]
            have harith : rc - 1 - rest.count s = rc - (rest.count s + 1) := by omega
            rw [harith]
        · have h1 : lookupKey tv2 S1.encode_map = lookupKey tv2 S.encode_map := by
            rw [hS1E, lookupKey_adjustRef_ne _ _ hc]
          rcases he2 : lookupKey tv2 S.encode_map with _ | ss2
          · rw [encAfterFree_none (h1.trans he2), encAfterFree_none he2]
          · have hsym2 : ss2.symbol ≠ s := by
              intro he
              cases ss2 with
              | mk sy rc2 =>
                have hsy : sy = s := he
                rw [hsy] at he2
                exact hc (hsyminj tv2 rc2 he2)
            rw [encAfterFree_some (h1.trans he2), encAfterFree_some he2,
              List.count_cons_of_ne hsym2]
      · intro s2
        rw [hDec s2]
        rcases hd2 : lookupKey s2 S.decode_map with _ | tv2
        · rw [decAfterFree_none (hS1D ▸ hd2), decAfterFree_none hd2]
        · obtain ⟨rc2, he2⟩ := hI.decToEnc s2 tv2 hd2
          have hd2a : lookupKey s2 S1.decode_map = some tv2 := by
            rw [hS1D]
            exact hd2
          by_cases hs2e : s2 = s
          · have he2s : lookupKey tv2 S.encode_map = some ⟨s, rc2⟩ := by
              rw [← hs2e]
              exact he2
            have htv2 : tv2 = tv := hsyminj tv2 rc2 he2s
            rw [htv2] at he2s hd2 hd2a
            rw [henc] at he2s
            have hrceq2 : rc = rc2 :=
              congrArg SharedSymbol.ref_count (Option.some.inj he2s)
            rw [decAfterFree_some hd2a hencS1, decAfterFree_some hd2 henc]
            show (if rc - 1 ≤ rest.count s then (none : Option Str) else some tv) =
              (if rc ≤ (s :: rest).count s then (none : Option Str) else some tv)
            rw [List.count_cons_self]
            by_cases hle : rc - 1 ≤ rest.count s
            · rw [if_pos hle, if_pos (by omega)]
            · rw [if_neg hle, if_neg (by omega)]
          · have htv2ne : tv2 ≠ tv := by
              intro he
              refine hs2e ?_
              rw [he, henc] at he2
              exact (congrArg SharedSymbol.symbol (Option.some.inj he2)).symm
            have he2a : lookupKey tv2 S1.encode_map = some ⟨s2, rc2⟩ := by
              rw [hS1E, lookupKey_adjustRef_ne _ _ htv2ne]
              exact he2
            rw [decAfterFree_some hd2a he2a, decAfterFree_some hd2 he2]
            show (if rc2 ≤ rest.count s2 then (none : Option Str) else some tv2) =
              (if rc2 ≤ (s :: rest).count s2 then (none : Option Str) else some tv2)
            rw [List.count_cons_of_ne hs2e]

theorem statNameData_moveToStorage {payload bytes : List Nat}
    (h : moveToStorage payload = some bytes) :
    statNameData bytes = payload ∧ dataSize bytes = payload.length := by
  unfold moveToStorage at h
  by_cases hlen : payload.length < 65536
  · rw [if_pos hlen] at h
    obtain rfl := Option.some.inj h
    have hq : payload.length / 256 % 256 = payload.length / 256 := by
      apply Nat.mod_eq_of_lt
      omega
    have hds : dataSize (payload.length % 256 :: payload.length / 256 % 256 :: payload)
        = payload.length := by
      show payload.length % 256 + 256 * (payload.length / 256 % 256) = payload.length
      rw [hq]
      exact Nat.mod_add_div _ _
    refine ⟨?_, hds⟩
    unfold statNameData
    rw [hds]
    simp
  · rw [if_neg hlen] at h
    exact Option.noConfusion h

theorem encodeToStorage_cases {T T1 : SymbolTable} {name : Str} {bytes : List Nat}
    (h : encodeToStorage T name = some (bytes, T1)) :
    ∃ syms, T.encode name = some (syms, T1) ∧
      moveToStorage (encodeSyms syms) = some bytes := by
  rcases h1 : T.encode name with _ | ⟨syms, Tx⟩
  · simp only [encodeToStorage, h1] at h
    exact Option.noConfusion h
  · rcases h2 : moveToStorage (encodeSyms syms) with _ | bs
    · simp only [encodeToStorage, h1, h2] at h
      exact Option.noConfusion h
    · simp only [encodeToStorage, h1, h2] at h
      obtain ⟨hb, hT⟩ := Prod.mk.injEq .. ▸ Option.some.inj h
      exact ⟨syms, by rw [hT], by rw [h2, hb]⟩

/-- The encode map seen as a function from tokens to symbols is injective on
a well-formed table, so paired occurrence counts agree. -/
theorem count_eq_of_pairing {T1 : SymbolTable} (hI1 : TableInv T1) {toks : List Str}
    {syms : List Nat}
    (hp : List.Forall₂ (fun tok sym => ∃ rc, lookupKey tok T1.encode_map = some ⟨sym, rc⟩)
      toks syms)
    {tok : Str} {sym rc : Nat} (h : lookupKey tok T1.encode_map = some ⟨sym, rc⟩) :
    syms.count sym = toks.count tok := by
  induction hp with
  | nil => rfl
  | @cons t0 s0 ts ss hr hrest ih =>
    obtain ⟨rc0, hr0⟩ := hr
    by_cases hc : t0 = tok
    · subst hc
      rw [hr0] at h
      have hs0 : s0 = sym := congrArg SharedSymbol.symbol (Option.some.inj h)
      subst hs0
      rw [List.count_cons_self, List.count_cons_self, ih]
    · have hs0ne : s0 ≠ sym := by
        intro he
        subst he
        have hx1 := hI1.encToDec t0 ⟨s0, rc0⟩ hr0
        have hx2 := hI1.encToDec tok ⟨s0, rc⟩ h
        rw [hx1] at hx2
        exact hc (Option.some.inj hx2)
      rw [List.count_cons_of_ne (fun he => hs0ne he.symm),
        List.count_cons_of_ne (fun he => hc he.symm), ih]

theorem length_eq_of_lookup_ext {κ ν : Type} [DecidableEq κ] {l1 l2 : List (κ × ν)}
    (h1 : (l1.map Prod.fst).Nodup) (h2 : (l2.map Prod.fst).Nodup)
    (h : ∀ k, lookupKey k l1 = lookupKey k l2) : l1.length = l2.length := by
  have hmem : ∀ k, k ∈ l1.map Prod.fst ↔ k ∈ l2.map Prod.fst := by
    intro k
    constructor
    · intro hm
      obtain ⟨v, hv⟩ := lookupKey_isSome_of_mem_keys hm
      exact mem_keys_of_lookupKey ((h k).symm.trans hv)
    · intro hm
      obtain ⟨v, hv⟩ := lookupKey_isSome_of_mem_keys hm
      exact mem_keys_of_lookupKey ((h k).trans hv)
  have hperm := (List.perm_ext_iff_of_nodup h1 h2).mpr hmem
  have := hperm.length_eq
  simpa using this

/-- C8: Encode/free inverse on state: for every reachable table state T and
every name successfully encoded into a packed StatName, running
SymbolTable::free on that StatName succeeds and returns the table to its
pre-encode state: both maps have exactly the pre-encode contents and
numSymbols is restored. -/
theorem c8_encode_free_restores {T T1 : SymbolTable} {name : Str} {bytes : List Nat}
    (hR : Reachable T) (h : encodeToStorage T name = some (bytes, T1)) :
    ∃ T2, T1.free bytes = some T2 ∧
      (∀ tv, lookupKey tv T2.encode_map = lookupKey tv T.encode_map) ∧
      (∀ s, lookupKey s T2.decode_map = lookupKey s T.decode_map) ∧
      T2.numSymbols = T.numSymbols := by
  have hI := tableInv_reachable hR
  obtain ⟨syms, henc, hmts⟩ := encodeToStorage_cases h
  have hIT1 : TableInv T1 := tableInv_encode hI henc
  rw [encode_eq_toSymbols] at henc
  have hpair := toSymbols_pairing hI henc
  have hb : ∀ s ∈ syms, s < 2 ^ 32 := syms_bound_of_pairing hIT1 (pairing_dec hIT1 hpair)
  have H : ∀ s2 ∈ syms, ∃ tv rc, lookupKey s2 T1.decode_map = some tv ∧
      lookupKey tv T1.encode_map = some ⟨s2, rc⟩ ∧ syms.count s2 ≤ rc := by
    intro s2 hs2
    obtain ⟨tok, htokmem, rcp, hentry⟩ := forall2_mem_right hpair hs2
    have hdec2 : lookupKey s2 T1.decode_map = some tok := hIT1.encToDec tok ⟨s2, rcp⟩ hentry
    have hcount : syms.count s2 = (nameTokens name).count tok :=
      count_eq_of_pairing hIT1 hpair hentry
    rcases hT : lookupKey tok T.encode_map with _ | s0
    · obtain ⟨symf, he2, _⟩ := toSymbols_enc_miss henc htokmem hT
      rw [hentry] at he2
      have hrcp : rcp = (nameTokens name).count tok :=
        congrArg SharedSymbol.ref_count (Option.some.inj he2)
      exact ⟨tok, rcp, hdec2, hentry, by omega⟩
    · have he2 := toSymbols_enc_present henc hT
      rw [hentry] at he2
      have hrcp : rcp = s0.ref_count + (nameTokens name).count tok :=
        congrArg SharedSymbol.ref_count (Option.some.inj he2)
      exact ⟨tok, rcp, hdec2, hentry, by omega⟩
  obtain ⟨T2, hfree, hEnc, hDec⟩ := freeSymbols_chars hIT1 H
  have hIT2 : TableInv T2 := tableInv_freeSymbols hIT1 hfree
  have hdataeq := (statNameData_moveToStorage hmts).1
  have hEncExt : ∀ tv, lookupKey tv T2.encode_map = lookupKey tv T.encode_map := by
    intro tv
    rw [hEnc tv]
    rcases hT : lookupKey tv T.encode_map with _ | s0
    · by_cases hmem : tv ∈ nameTokens name
      · obtain ⟨symf, he2, _⟩ := toSymbols_enc_miss henc hmem hT
        rw [encAfterFree_some he2]
        have hcount : syms.count symf = (nameTokens name).count tv :=
          count_eq_of_pairing hIT1 hpair he2
        rw [if_pos (by dsimp only; omega)]
      · rw [encAfterFree_none (by rw [toSymbols_enc_other henc hmem]; exact hT)]
    · have he2 := toSymbols_enc_present henc hT
      rw [encAfterFree_some he2]
      have hcount : syms.count s0.symbol = (nameTokens name).count tv := by
        have := count_eq_of_pairing hIT1 hpair he2
        simpa using this
      have hrc0 : 1 ≤ s0.ref_count := hI.refPos tv s0 hT
      rw [if_neg (by dsimp only; omega)]
      dsimp only
      rw [hcount]
      congr 1
      cases s0 with
      | mk sy rc0 =>
        simp only [SharedSymbol.mk.injEq]
        exact ⟨trivial, by omega⟩
  have hDecExt : ∀ s, lookupKey s T2.decode_map = lookupKey s T.decode_map := by
    intro s
    rw [hDec s]
    rcases hT : lookupKey s T.decode_map with _ | tv
    · rcases hT1l : lookupKey s T1.decode_map with _ | tv
      · rw [decAfterFree_none hT1l]
      · rcases toSymbols_dec_source henc hT1l with hsome | ⟨_, hEnone, hmem, hfin⟩
        · rw [hT] at hsome
          exact Option.noConfusion hsome
        · rw [decAfterFree_some hT1l hfin]
          have hcount : syms.count s = (nameTokens name).count tv :=
            count_eq_of_pairing hIT1 hpair hfin
          rw [if_pos (by dsimp only; omega)]
    · have hT1l : lookupKey s T1.decode_map = some tv := toSymbols_dec_preserve henc hT
      obtain ⟨rc0, hTe⟩ := hI.decToEnc s tv hT
      have he2 := toSymbols_enc_present henc hTe
      rw [decAfterFree_some hT1l he2]
      have hcount : syms.count s = (nameTokens name).count tv := by
        have := count_eq_of_pairing hIT1 hpair he2
        simpa using this
      have hrc0 : 1 ≤ rc0 := by
        have := hI.refPos tv ⟨s, rc0⟩ hTe
        simpa using this
      rw [if_neg (by dsimp only; omega)]
  refine ⟨T2, ?_, hEncExt, hDecExt, ?_⟩
  · show T1.freeSymbols (decodeSymbols (statNameData bytes)) = some T2
    rw [hdataeq, decodeSymbols_encodeSyms syms hb]
    exact hfree
  · unfold SymbolTable.numSymbols
    rw [if_pos hIT2.lenEq, if_pos hI.lenEq,
      length_eq_of_lookup_ext hIT2.encNodup hI.encNodup hEncExt]

theorem c8_encode_free_restores_witness :
    ∃ T2, wTab.free [2, 0, 0, 1] = some T2 ∧
      (∀ tv, lookupKey tv T2.encode_map = lookupKey tv initTable.encode_map) ∧
      (∀ s, lookupKey s T2.decode_map = lookupKey s initTable.decode_map) ∧
      T2.numSymbols = initTable.numSymbols := by
  have he : initTable.encode ['a', '.', 'b'] = some ([0, 1], wTab) := by decide
  have hs : encodeSyms [0, 1] = [0, 1] := by
    simp [encodeSyms, addSymbol_zero, addSymbol_of_lt 1 (by norm_num)]
  have hm : moveToStorage [0, 1] = some [2, 0, 0, 1] := by decide
  have h : encodeToStorage initTable ['a', '.', 'b'] = some ([2, 0, 0, 1], wTab) := by
    simp only [encodeToStorage, he, hs, hm]
  exact c8_encode_free_restores Relation.ReflTransGen.refl h

/-! ## C7: encoding injectivity -/

theorem forall2_unique {α β : Type} {R1 R2 : α → β → Prop} : ∀ {as : List α} {bs1 bs2 : List β},
    List.Forall₂ R1 as bs1 → List.Forall₂ R2 as bs2 →
    (∀ a b1 b2, R1 a b1 → R2 a b2 → b1 = b2) → bs1 = bs2 := by
  intro as
  induction as with
  | nil =>
    intro bs1 bs2 h1 h2 _
    cases h1
    cases h2
    rfl
  | cons a rest ih =>
    intro bs1 bs2 h1 h2 hu
    cases h1 with
    | cons hr1 ht1 =>
      cases h2 with
      | cons hr2 ht2 =>
        rw [hu a _ _ hr1 hr2, ih ht1 ht2 hu]

/-- C7: Encoding injectivity: encoding s1 and then s2 against the same table,
the two packed names are byte-equal in the sense of StatName::operator==
exactly when s1 = s2. -/
theorem c7_encode_injective {T T1 T2 : SymbolTable} {s1 s2 : Str} {b1 b2 : List Nat}
    (hR : Reachable T)
    (h1 : encodeToStorage T s1 = some (b1, T1))
    (h2 : encodeToStorage T1 s2 = some (b2, T2)) :
    statNameEq b1 b2 = true ↔ s1 = s2 := by
  obtain ⟨syms1, henc1, hm1⟩ := encodeToStorage_cases h1
  obtain ⟨syms2, henc2, hm2⟩ := encodeToStorage_cases h2
  have hI := tableInv_reachable hR
  have hIT1 := tableInv_encode hI henc1
  have hIT2 := tableInv_encode hIT1 henc2
  rw [encode_eq_toSymbols] at henc1 henc2
  have hp1 := toSymbols_pairing hI henc1
  have hp2 := toSymbols_pairing hIT1 henc2
  have hb1 : ∀ s ∈ syms1, s < 2 ^ 32 := syms_bound_of_pairing hIT1 (pairing_dec hIT1 hp1)
  have hb2 : ∀ s ∈ syms2, s < 2 ^ 32 := syms_bound_of_pairing hIT2 (pairing_dec hIT2 hp2)
  obtain ⟨hd1, hs1⟩ := statNameData_moveToStorage hm1
  obtain ⟨hd2, hs2⟩ := statNameData_moveToStorage hm2
  constructor
  · intro heq
    simp only [statNameEq, Bool.and_eq_true, beq_iff_eq] at heq
    have hpay : statNameData b1 = statNameData b2 := heq.2
    rw [hd1, hd2] at hpay
    have hsymeq : syms1 = syms2 := by
      have e1 := decodeSymbols_encodeSyms syms1 hb1
      have e2 := decodeSymbols_encodeSyms syms2 hb2
      rw [← e1, ← e2, hpay]
    have hr2 : resolveAll T2 syms2 = some (nameTokens s2) :=
      resolveAll_of_pairing (pairing_dec hIT2 hp2)
    have hdp1T2 : List.Forall₂ (fun tok sym => lookupKey sym T2.decode_map = some tok)
        (nameTokens s1) syms1 :=
      (pairing_dec hIT1 hp1).imp (fun {a b} hab => toSymbols_dec_preserve henc2 hab)
    have hr1 : resolveAll T2 syms1 = some (nameTokens s1) := resolveAll_of_pairing hdp1T2
    rw [hsymeq, hr2] at hr1
    exact (nameTokens_inj (Option.some.inj hr1)).symm
  · intro hseq
    subst hseq
    have hp1T2 : List.Forall₂
        (fun tok sym => ∃ rc, lookupKey tok T2.encode_map = some ⟨sym, rc⟩)
        (nameTokens s1) syms1 :=
      hp1.imp (fun {a b} hab => by
        obtain ⟨rc, he⟩ := hab
        exact ⟨rc + (nameTokens s1).count a, toSymbols_enc_present henc2 he⟩)
    have hsymeq : syms2 = syms1 :=
      forall2_unique hp2 hp1T2 (fun t a b hta htb => by
        obtain ⟨rc, hea⟩ := hta
        obtain ⟨rc2, heb⟩ := htb
        rw [hea] at heb
        exact congrArg SharedSymbol.symbol (Option.some.inj heb))
    have hbeq : b1 = b2 := by
      rw [hsymeq] at hm2
      rw [hm1] at hm2
      exact Option.some.inj hm2
    rw [hbeq]
    simp [statNameEq]

theorem c7_encode_injective_witness :
    (statNameEq [2, 0, 0, 1] [1, 0, 0] = true ↔ (['a', '.', 'b'] : Str) = ['a']) := by
  have he1 : initTable.encode ['a', '.', 'b'] = some ([0, 1], wTab) := by decide
  have hs1 : encodeSyms [0, 1] = [0, 1] := by
    simp [encodeSyms, addSymbol_zero, addSymbol_of_lt 1 (by norm_num)]
  have hm1 : moveToStorage [0, 1] = some [2, 0, 0, 1] := by decide
  have h1 : encodeToStorage initTable ['a', '.', 'b'] = some ([2, 0, 0, 1], wTab) := by
    simp only [encodeToStorage, he1, hs1, hm1]
  have he2 : wTab.encode ['a'] = some ([0],
      (⟨2, 2, [(['b'], ⟨1, 1⟩), (['a'], ⟨0, 2⟩)], [(1, ['b']), (0, ['a'])], []⟩
        : SymbolTable)) := by decide
  have hs2 : encodeSyms [0] = [0] := by
    simp [encodeSyms, addSymbol_zero]
  have hm2 : moveToStorage [0] = some [1, 0, 0] := by decide
  have h2 : encodeToStorage wTab ['a'] = some ([1, 0, 0],
      (⟨2, 2, [(['b'], ⟨1, 1⟩), (['a'], ⟨0, 2⟩)], [(1, ['b']), (0, ['a'])], []⟩
        : SymbolTable)) := by
    simp only [encodeToStorage, he2, hs2, hm2]
  exact c7_encode_injective Relation.ReflTransGen.refl h1 h2

/-! ## C9: StatNameJoiner -/

theorem resolveAll_length {T : SymbolTable} : ∀ {syms : List Nat} {toks : List Str},
    resolveAll T syms = some toks → toks.length = syms.length := by
  intro syms
  induction syms with
  | nil =>
    intro toks h
    obtain rfl := Option.some.inj h
    rfl
  | cons s rest ih =>
    intro toks h
    rcases hf : T.fromSymbol s with _ | tok
    · simp only [resolveAll, hf] at h
      exact Option.noConfusion h
    · rcases hr : resolveAll T rest with _ | ts
      · simp only [resolveAll, hf, hr] at h
        exact Option.noConfusion h
      · simp only [resolveAll, hf, hr] at h
        obtain rfl := Option.some.inj h
        simp [ih hr]

theorem resolveAll_bound {T : SymbolTable} (hI : TableInv T) : ∀ {syms : List Nat}
    {toks : List Str}, resolveAll T syms = some toks → ∀ s ∈ syms, s < 2 ^ 32 := by
  intro syms
  induction syms with
  | nil =>
    intro toks _ s hs
    exact absurd hs (List.not_mem_nil s)
  | cons x rest ih =>
    intro toks h s hs
    rcases hf : T.fromSymbol x with _ | tok
    · simp only [resolveAll, hf] at h
      exact Option.noConfusion h
    · rcases hr : resolveAll T rest with _ | ts
      · simp only [resolveAll, hf, hr] at h
        exact Option.noConfusion h
      · rcases List.mem_cons.mp hs with rfl | hmem
        · have hle := hI.decBound s tok hf
          have := hI.monoLt
          omega
        · exact ih hr s hmem

theorem resolveAll_append {T : SymbolTable} {sa sb : List Nat} {ta tb : List Str}
    (ha : resolveAll T sa = some ta) (hb : resolveAll T sb = some tb) :
    resolveAll T (sa ++ sb) = some (ta ++ tb) := by
  induction sa generalizing ta with
  | nil =>
    obtain rfl := Option.some.inj ha
    simpa using hb
  | cons x rest ih =>
    rcases hf : T.fromSymbol x with _ | tok
    · simp only [resolveAll, hf] at ha
      exact Option.noConfusion ha
    · rcases hr : resolveAll T rest with _ | ts
      · simp only [resolveAll, hf, hr] at ha
        exact Option.noConfusion ha
      · simp only [resolveAll, hf, hr] at ha
        obtain rfl := Option.some.inj ha
        rw [List.cons_append]
        simp only [resolveAll, hf, ih hr, List.cons_append]

/-- C9: StatNameJoiner produces a packed name whose payload is the
concatenation of the two operand payloads under a fresh length prefix; it
never consults or mutates the table, and decoding the joined name yields
decode(a) ++ "." ++ decode(b) whenever both operands decode. -/
theorem c9_joiner_decode {T : SymbolTable} (hR : Reachable T) {sa sb A B J : List Nat}
    {da db : Str}
    (hA : moveToStorage (encodeSyms sa) = some A)
    (hB : moveToStorage (encodeSyms sb) = some B)
    (hna : sa ≠ []) (hnb : sb ≠ [])
    (hda : T.decodeSymbolVec sa = some da)
    (hdb : T.decodeSymbolVec sb = some db)
    (hJ : statNameJoiner A B = some J) :
    statNameToString T J = some (da ++ '.' :: db) := by
  have hI := tableInv_reachable hR
  obtain ⟨hdataA, hdsA⟩ := statNameData_moveToStorage hA
  obtain ⟨hdataB, hdsB⟩ := statNameData_moveToStorage hB
  unfold SymbolTable.decodeSymbolVec at hda hdb
  obtain ⟨ta, hra, hjoina⟩ := Option.map_eq_some'.mp hda
  obtain ⟨tb, hrb, hjoinb⟩ := Option.map_eq_some'.mp hdb
  have hba : ∀ s ∈ sa, s < 2 ^ 32 := resolveAll_bound hI hra
  have hbb : ∀ s ∈ sb, s < 2 ^ 32 := resolveAll_bound hI hrb
  have hta : ta ≠ [] := by
    intro h0
    apply hna
    have hlen := resolveAll_length hra
    rw [h0] at hlen
    exact List.eq_nil_of_length_eq_zero hlen.symm
  have htb : tb ≠ [] := by
    intro h0
    apply hnb
    have hlen := resolveAll_length hrb
    rw [h0] at hlen
    exact List.eq_nil_of_length_eq_zero hlen.symm
  have hlen : (statNameData A ++ statNameData B).length = dataSize A + dataSize B := by
    rw [List.length_append, hdataA, hdataB, hdsA, hdsB]
  have hJoin : statNameJoiner A B = moveToStorage (statNameData A ++ statNameData B) := by
    unfold statNameJoiner moveToStorage
    rw [hlen]
  rw [hJoin] at hJ
  obtain ⟨hdataJ, _⟩ := statNameData_moveToStorage hJ
  show T.decode (statNameData J) = some (da ++ '.' :: db)
  rw [hdataJ, hdataA, hdataB]
  have henc : decodeSymbols (encodeSyms sa ++ encodeSyms sb) = sa ++ sb := by
    have hflat : encodeSyms sa ++ encodeSyms sb = encodeSyms (sa ++ sb) := by
      simp [encodeSyms]
    rw [hflat]
    apply decodeSymbols_encodeSyms
    intro s hs
    rcases List.mem_append.mp hs with h | h
    · exact hba s h
    · exact hbb s h
  unfold SymbolTable.decode
  rw [henc]
  unfold SymbolTable.decodeSymbolVec
  rw [resolveAll_append hra hrb]
  rw [Option.map_some']
  rw [joinDots_append ta tb hta htb, hjoina, hjoinb]

theorem c9_joiner_decode_witness :
    statNameToString wTab [2, 0, 0, 1] = some (['a'] ++ '.' :: ['b']) := by
  have hA : moveToStorage (encodeSyms [0]) = some [1, 0, 0] := by
    have h0 : encodeSyms [0] = [0] := by simp [encodeSyms, addSymbol_zero]
    rw [h0]
    decide
  have hB : moveToStorage (encodeSyms [1]) = some [1, 0, 1] := by
    have h1 : encodeSyms [1] = [1] := by
      simp [encodeSyms, addSymbol_of_lt 1 (by norm_num)]
    rw [h1]
    decide
  exact c9_joiner_decode wTab_reachable hA hB (by decide) (by decide) (by decide)
    (by decide) (by decide)

/-! ## C10: lessThan -/

theorem lessThanSyms_cons_cons {T : SymbolTable} (a b : Nat) (as bs : List Nat) :
    T.lessThanSyms (a :: as) (b :: bs) =
      if a = b then T.lessThanSyms as bs
      else match T.fromSymbol a, T.fromSymbol b with
        | some sa, some sb => some (decide (sa < sb))
        | _, _ => none := rfl

theorem lessThanSyms_diff {T : SymbolTable} : ∀ (common : List Nat) {x y : Nat}
    (as2 bs2 : List Nat), x ≠ y →
    T.lessThanSyms (common ++ x :: as2) (common ++ y :: bs2) =
      match T.fromSymbol x, T.fromSymbol y with
      | some tx, some ty => some (decide (tx < ty))
      | _, _ => none := by
  intro common
  induction common with
  | nil =>
    intro x y as2 bs2 hne
    rw [List.nil_append, List.nil_append, lessThanSyms_cons_cons, if_neg hne]
  | cons c rest ih =>
    intro x y as2 bs2 hne
    rw [List.cons_append, List.cons_append, lessThanSyms_cons_cons, if_pos rfl]
    exact ih as2 bs2 hne

theorem lessThanSyms_prefix_right {T : SymbolTable} : ∀ (common extra : List Nat),
    T.lessThanSyms common (common ++ extra) = some (decide (0 < extra.length)) := by
  intro common
  induction common with
  | nil =>
    intro extra
    cases extra with
    | nil => rfl
    | cons e es => simp [SymbolTable.lessThanSyms]
  | cons c rest ih =>
    intro extra
    rw [List.cons_append, lessThanSyms_cons_cons, if_pos rfl]
    exact ih extra

theorem lessThanSyms_prefix_left {T : SymbolTable} : ∀ (common extra : List Nat),
    T.lessThanSyms (common ++ extra) common = some false := by
  intro common
  induction common with
  | nil =>
    intro extra
    cases extra with
    | nil => rfl
    | cons e es => rfl
  | cons c rest ih =>
    intro extra
    rw [List.cons_append, lessThanSyms_cons_cons, if_pos rfl]
    exact ih extra

/-- C10: lessThan compares two packed names by their decoded id sequences: at
the first paired position where the ids differ (a shared prefix `common`
followed by distinct ids x and y) it returns the string comparison of the two
resolved tokens; if the ids agree at every paired position (one sequence is a
prefix of the other) it returns true exactly when the first sequence is
strictly shorter, so lessThan of a name against itself is false (the
prefix-case instance with nothing extra). -/
theorem c10_lessThan_semantics (T : SymbolTable) :
    (∀ (common : List Nat) (x y : Nat) (as2 bs2 A B : List Nat) (tx ty : Str),
      moveToStorage (encodeSyms (common ++ x :: as2)) = some A →
      moveToStorage (encodeSyms (common ++ y :: bs2)) = some B →
      (∀ s ∈ common ++ x :: as2, s < 2 ^ 32) →
      (∀ s ∈ common ++ y :: bs2, s < 2 ^ 32) →
      x ≠ y → T.fromSymbol x = some tx → T.fromSymbol y = some ty →
      T.lessThan A B = some (decide (tx < ty))) ∧
    (∀ (common extra A B : List Nat),
      moveToStorage (encodeSyms common) = some A →
      moveToStorage (encodeSyms (common ++ extra)) = some B →
      (∀ s ∈ common ++ extra, s < 2 ^ 32) →
      T.lessThan A B = some (decide (0 < extra.length)) ∧
        T.lessThan B A = some false) := by
  constructor
  · intro common x y as2 bs2 A B tx ty hA hB hba hbb hne hx hy
    obtain ⟨hdA, _⟩ := statNameData_moveToStorage hA
    obtain ⟨hdB, _⟩ := statNameData_moveToStorage hB
    unfold SymbolTable.lessThan
    rw [hdA, hdB, decodeSymbols_encodeSyms _ hba, decodeSymbols_encodeSyms _ hbb]
    rw [lessThanSyms_diff common as2 bs2 hne]
    rw [hx, hy]
  · intro common extra A B hA hB hb
    obtain ⟨hdA, _⟩ := statNameData_moveToStorage hA
    obtain ⟨hdB, _⟩ := statNameData_moveToStorage hB
    have hbc : ∀ s ∈ common, s < 2 ^ 32 := fun s hs =>
      hb s (List.mem_append.mpr (Or.inl hs))
    constructor
    · unfold SymbolTable.lessThan
      rw [hdA, hdB, decodeSymbols_encodeSyms _ hbc, decodeSymbols_encodeSyms _ hb]
      exact lessThanSyms_prefix_right common extra
    · unfold SymbolTable.lessThan
      rw [hdA, hdB, decodeSymbols_encodeSyms _ hbc, decodeSymbols_encodeSyms _ hb]
      exact lessThanSyms_prefix_left common extra

theorem c10_lessThan_semantics_witness :
    wTab.lessThan [1, 0, 0] [1, 0, 1] = some (decide ((['a'] : Str) < ['b'])) ∧
    wTab.lessThan [1, 0, 0] [2, 0, 0, 1] = some (decide (0 < [1].length)) ∧
    wTab.lessThan [2, 0, 0, 1] [1, 0, 0] = some false := by
  have hA : moveToStorage (encodeSyms [0]) = some [1, 0, 0] := by
    have h0 : encodeSyms [0] = [0] := by simp [encodeSyms, addSymbol_zero]
    rw [h0]
    decide
  have hB : moveToStorage (encodeSyms [1]) = some [1, 0, 1] := by
    have h1 : encodeSyms [1] = [1] := by
      simp [encodeSyms, addSymbol_of_lt 1 (by norm_num)]
    rw [h1]
    decide
  have hAB : moveToStorage (encodeSyms [0, 1]) = some [2, 0, 0, 1] := by
    have h01 : encodeSyms [0, 1] = [0, 1] := by
      simp [encodeSyms, addSymbol_zero, addSymbol_of_lt 1 (by norm_num)]
    rw [h01]
    decide
  have h1 := (c10_lessThan_semantics wTab).1 [] 0 1 [] [] [1, 0, 0] [1, 0, 1]
    ['a'] ['b'] hA hB (by decide) (by decide) (by decide) (by decide) (by decide)
  have h2 := (c10_lessThan_semantics wTab).2 [0] [1] [1, 0, 0] [2, 0, 0, 1]
    hA hAB (by decide)
  exact ⟨h1, h2.1, h2.2⟩
